import Mathlib

set_option maxHeartbeats 1000000

namespace Zigster

/-- Model of a wall-clock timestamp as read by the chart code: Go
`time.Time` exposes `Hour ∈ [0,24)`, `Minute ∈ [0,60)`, `Second ∈ [0,60)`. -/
structure Clock where
  hour : Fin 24
  minute : Fin 60
  second : Fin 60
deriving DecidableEq, Repr

/-- A `time.Time` as stored in a chart point: `none` models Go's zero time
(`t.IsZero()`); `some c` a non-zero time with the given clock fields. -/
abbrev GoTime := Option Clock

/-- src/history.go `HistoryPoint`: `{Temp float64, Time time.Time}`.
float64 values are modelled as exact rationals. -/
structure HistoryPoint where
  Temp : ℚ
  Time : GoTime
deriving DecidableEq, Repr

/-- `math.MaxFloat64 = (2^53 - 1) * 2^971` as an exact rational. -/
def maxFloat64 : ℚ := (2 ^ 53 - 1) * 2 ^ 971

/-- src/history.go `History`: ring buffer plus lifetime extrema. -/
structure History where
  Points : List HistoryPoint
  Max : Int
  Min : ℚ
  Peak : ℚ
deriving Repr

/-- src/history.go `NewHistory`. -/
def NewHistory (capacity : Int) : History :=
  ⟨[], capacity, maxFloat64, -maxFloat64⟩

/-- src/history.go `History.Push`. At capacity the Go code shifts the slice
left by one (`copy(h.Points, h.Points[1:])`) and writes the new point into
the last slot; for a non-empty slice that equals `tail ++ [p]`. When the
buffer is simultaneously at capacity and empty (possible only for
capacity ≤ 0) the write `h.Points[len-1]` is an out-of-range index fault,
modelled as `none`. -/
def History.Push (h : History) (temp : ℚ) (t : GoTime) : Option History :=
  let p : HistoryPoint := ⟨temp, t⟩
  let newMin : ℚ := if temp < h.Min then temp else h.Min
  let newPeak : ℚ := if temp > h.Peak then temp else h.Peak
  if (h.Points.length : Int) ≥ h.Max then
    match h.Points with
    | [] => none
    | _ :: tl => some ⟨tl ++ [p], h.Max, newMin, newPeak⟩
  else
    some ⟨h.Points ++ [p], h.Max, newMin, newPeak⟩

/-- Iterated `Push`, failing if any push faults. -/
def pushAll (h : History) : List (ℚ × GoTime) → Option History
  | [] => some h
  | v :: vs =>
    match h.Push v.1 v.2 with
    | none => none
    | some h2 => pushAll h2 vs

/-- src/history.go `History.Last`. -/
def History.Last (h : History) : ℚ :=
  match h.Points.getLast? with
  | none => 0
  | some p => p.Temp

/-- src/history.go `History.Avg`. -/
def History.Avg (h : History) : ℚ :=
  if h.Points.length = 0 then 0
  else (h.Points.map (·.Temp)).sum / (h.Points.length : ℚ)

/-- src/history.go `History.LastN`: the Go code computes
`start := len - n; if start < 0 { start = 0 }` and copies `Points[start:]`. -/
def History.LastN (h : History) (n : Int) : List ℚ :=
  if n ≤ 0 ∨ h.Points.length = 0 then []
  else (h.Points.drop (max ((h.Points.length : Int) - n) 0).toNat).map (·.Temp)

/-- src/history.go `History.LastNPoints`: same slicing, keeping timestamps. -/
def History.LastNPoints (h : History) (n : Int) : List HistoryPoint :=
  if n ≤ 0 ∨ h.Points.length = 0 then []
  else h.Points.drop (max ((h.Points.length : Int) - n) 0).toNat

/-- src/history.go `HistoryStore`: the Go map is modelled as a lookup
function (`none` = key absent). -/
structure HistoryStore where
  Data : String → Option History
  Capacity : Int

/-- src/history.go `NewHistoryStore`. -/
def NewHistoryStore (capacity : Int) : HistoryStore :=
  ⟨fun _ => none, capacity⟩

/-- src/history.go `HistoryStore.Record`: lazily creates the per-key buffer
then pushes; a faulting push propagates as `none`. -/
def HistoryStore.Record (s : HistoryStore) (key : String) (temp : ℚ)
    (t : GoTime) : Option HistoryStore :=
  match (match s.Data key with
    | some h0 => h0
    | none => NewHistory s.Capacity).Push temp t with
  | none => none
  | some h2 => some ⟨fun k => if k = key then some h2 else s.Data k, s.Capacity⟩

/-- src/history.go `HistoryStore.Get`. -/
def HistoryStore.Get (s : HistoryStore) (key : String) : Option History :=
  s.Data key

/-- The point a single push appends. -/
def mkPoint (v : ℚ × GoTime) : HistoryPoint := ⟨v.1, v.2⟩

/-- Lifetime-minimum update step of `Push`. -/
def minStep (m : ℚ) (v : ℚ × GoTime) : ℚ := if v.1 < m then v.1 else m

/-- Lifetime-peak update step of `Push`. -/
def peakStep (m : ℚ) (v : ℚ × GoTime) : ℚ := if v.1 > m then v.1 else m

lemma Push_full (h : History) (temp : ℚ) (t : GoTime) (p0 : HistoryPoint)
    (tl : List HistoryPoint) (hcons : h.Points = p0 :: tl)
    (hfull : (h.Points.length : Int) ≥ h.Max) :
    h.Push temp t = some ⟨tl ++ [⟨temp, t⟩], h.Max,
      if temp < h.Min then temp else h.Min,
      if temp > h.Peak then temp else h.Peak⟩ := by
  simp only [History.Push, hcons]
  rw [if_pos (by rw [← hcons]; exact hfull)]

lemma Push_room (h : History) (temp : ℚ) (t : GoTime)
    (hroom : ¬ (h.Points.length : Int) ≥ h.Max) :
    h.Push temp t = some ⟨h.Points ++ [⟨temp, t⟩], h.Max,
      if temp < h.Min then temp else h.Min,
      if temp > h.Peak then temp else h.Peak⟩ := by
  simp only [History.Push]
  rw [if_neg hroom]

lemma pushAll_append (h : History) (l : List (ℚ × GoTime)) (x : ℚ × GoTime) :
    pushAll h (l ++ [x]) =
      match pushAll h l with
      | none => none
      | some h2 => h2.Push x.1 x.2 := by
  induction l generalizing h with
  | nil =>
    simp [pushAll]
    cases h.Push x.1 x.2 <;> simp [pushAll]
  | cons v vs ih =>
    simp only [List.cons_append, pushAll]
    cases h.Push v.1 v.2 <;> simp [ih]

/-- After `k` pushes into a fresh buffer of capacity `c ≥ 1`, no push has
faulted, the capacity is unchanged, the live window is the last
`min(k, c)` pushed points in push order, and the lifetime extrema are the
folds of the `Push` update steps over all pushed values. -/
lemma pushAll_spec (c : Int) (hc : 1 ≤ c) (ps : List (ℚ × GoTime)) :
    ∃ h, pushAll (NewHistory c) ps = some h ∧ h.Max = c ∧
      h.Points = (ps.map mkPoint).drop (ps.length - c.toNat) ∧
      h.Min = ps.foldl minStep maxFloat64 ∧
      h.Peak = ps.foldl peakStep (-maxFloat64) := by
  induction ps using List.reverseRecOn with
  | nil =>
    exact ⟨NewHistory c, rfl, rfl, by simp [NewHistory], rfl, rfl⟩
  | append_singleton l x ih =>
    obtain ⟨h, hrun, hmax, hpts, hmin, hpeak⟩ := ih
    have hc0 : c.toNat ≠ 0 := by omega
    have hlen : h.Points.length = min l.length c.toNat := by
      rw [hpts]
      simp [List.length_drop]
      omega
    refine ⟨⟨?_, c, minStep h.Min x, peakStep h.Peak x⟩, ?_, rfl, ?_, ?_, ?_⟩
    · exact (l.map mkPoint ++ [mkPoint x]).drop ((l.length + 1) - c.toNat)
    · have hstep : pushAll (NewHistory c) (l ++ [x]) = h.Push x.1 x.2 := by
        rw [pushAll_append, hrun]
      rw [hstep]
      by_cases hfull : (h.Points.length : Int) ≥ h.Max
      · -- at capacity: l.length ≥ c, window nonempty, shift-and-replace
        have hlc : c.toNat ≤ l.length := by
          rw [hlen, hmax] at hfull; omega
        obtain ⟨p0, tl, hcons⟩ : ∃ p0 tl, h.Points = p0 :: tl := by
          cases hps : h.Points with
          | nil =>
            rw [hps] at hlen
            simp at hlen
            omega
          | cons a b => exact ⟨a, b, rfl⟩
        rw [Push_full h x.1 x.2 p0 tl hcons hfull]
        have htl : tl = (l.map mkPoint).drop (l.length - c.toNat + 1) := by
          have h2 : (l.map mkPoint).drop (l.length - c.toNat) = p0 :: tl := by
            rw [hpts] at hcons; exact hcons
          have h3 := congrArg List.tail h2
          simp only [List.tail_drop, List.tail_cons] at h3
          exact h3.symm
        congr 1
        refine History.mk.injEq .. |>.mpr ⟨?_, hmax, ?_, ?_⟩
        · rw [htl, List.drop_append_of_le_length (by simp; omega)]
          have heq : l.length - c.toNat + 1 = l.length + 1 - c.toNat := by omega
          rw [heq]
          simp [mkPoint]
        · rfl
        · rfl
      · -- below capacity: plain append
        have hlc : l.length < c.toNat := by
          rw [hlen, hmax] at hfull
          omega
        rw [Push_room h x.1 x.2 hfull]
        congr 1
        refine History.mk.injEq .. |>.mpr ⟨?_, hmax, ?_, ?_⟩
        · rw [hpts]
          have h1 : l.length - c.toNat = 0 := by omega
          have h2 : l.length + 1 - c.toNat = 0 := by omega
          simp [h1, h2, mkPoint]
        · rfl
        · rfl
    · simp
    · rw [List.foldl_append]
      simp [minStep, hmin]
    · rw [List.foldl_append]
      simp [peakStep, hpeak]

/-- C1: with capacity `c ≥ 1`, after any `k` pushes the window holds exactly
the last `min(k, c)` pushed points in push order, and `LastNPoints n`
returns the most recent `min(n, len)` of them oldest-first (empty for
`n ≤ 0` or an empty buffer). -/
theorem ringBuffer_capacity_and_lastN (c : Int) (hc : 1 ≤ c)
    (ps : List (ℚ × GoTime)) (h : History)
    (hrun : pushAll (NewHistory c) ps = some h) :
    h.Points = (ps.map mkPoint).drop (ps.length - c.toNat) ∧
    h.Points.length = min ps.length c.toNat ∧
    ∀ n : Int, (h.LastNPoints n).length = min n.toNat h.Points.length ∧
      h.LastNPoints n = h.Points.drop (h.Points.length - n.toNat) := by
  obtain ⟨h2, hrun2, _, hpts, _, _⟩ := pushAll_spec c hc ps
  rw [hrun] at hrun2
  obtain rfl : h = h2 := Option.some.inj hrun2
  refine ⟨hpts, ?_, ?_⟩
  · rw [hpts]
    simp [List.length_drop]
    omega
  · intro n
    constructor
    · rw [History.LastNPoints]
      by_cases h1 : n ≤ 0 ∨ h.Points.length = 0
      · rw [if_pos h1]
        rcases h1 with h1 | h1
        · have : n.toNat = 0 := by omega
          simp [this]
        · simp [h1]
      · rw [if_neg h1]
        push_neg at h1
        simp only [List.length_drop]
        omega
    · rw [History.LastNPoints]
      by_cases h1 : n ≤ 0 ∨ h.Points.length = 0
      · rw [if_pos h1]
        rcases h1 with h1 | h1
        · have : n.toNat = 0 := by omega
          rw [this]
          simp
        · rw [List.drop_eq_nil_iff.mpr (by omega)]
      · rw [if_neg h1]
        push_neg at h1
        congr 1
        omega

/-- Witness for C1 at a concrete run: capacity 2, three pushes. -/
theorem ringBuffer_capacity_and_lastN_witness :
    ((pushAll (NewHistory 2)
        [(30, none), (31, none), (32, none)]).map History.Points) =
      some [⟨31, none⟩, ⟨32, none⟩] ∧
    ∀ h, pushAll (NewHistory 2)
        [(30, none), (31, none), (32, none)] = some h →
      h.Points.length = min 3 2 := by
  constructor
  · decide
  · intro h hrun
    have := ringBuffer_capacity_and_lastN 2 (by decide)
      [(30, none), (31, none), (32, none)] h hrun
    exact this.2.1

lemma foldl_minStep_le_init (ps : List (ℚ × GoTime)) (m0 : ℚ) :
    ps.foldl minStep m0 ≤ m0 := by
  induction ps generalizing m0 with
  | nil => simp
  | cons v vs ih =>
    refine le_trans (ih (minStep m0 v)) ?_
    rw [minStep]
    split <;> [exact le_of_lt (by assumption); exact le_refl m0]

lemma foldl_minStep_le (ps : List (ℚ × GoTime)) (m0 : ℚ) :
    ∀ v ∈ ps, ps.foldl minStep m0 ≤ v.1 := by
  induction ps generalizing m0 with
  | nil => intro v hv; cases hv
  | cons w ws ih =>
    intro v hv
    rcases List.mem_cons.mp hv with hv | hv
    · subst hv
      refine le_trans (foldl_minStep_le_init ws (minStep m0 v)) ?_
      rw [minStep]
      split <;> [exact le_refl v.1; exact le_of_not_lt (by assumption)]
    · exact ih (minStep m0 w) v hv

lemma foldl_minStep_mem (ps : List (ℚ × GoTime)) (m0 : ℚ) :
    ps.foldl minStep m0 = m0 ∨ ps.foldl minStep m0 ∈ ps.map (·.1) := by
  induction ps generalizing m0 with
  | nil => left; rfl
  | cons w ws ih =>
    rcases ih (minStep m0 w) with h | h
    · rw [List.foldl_cons, h, minStep]
      split
      · right; simp
      · left; rfl
    · right
      rw [List.foldl_cons]
      simp only [List.map_cons, List.mem_cons]
      right
      exact h

lemma foldl_peakStep_ge_init (ps : List (ℚ × GoTime)) (m0 : ℚ) :
    m0 ≤ ps.foldl peakStep m0 := by
  induction ps generalizing m0 with
  | nil => simp
  | cons v vs ih =>
    refine le_trans ?_ (ih (peakStep m0 v))
    rw [peakStep]
    split <;> [exact le_of_lt (by assumption); exact le_refl m0]

lemma foldl_peakStep_ge (ps : List (ℚ × GoTime)) (m0 : ℚ) :
    ∀ v ∈ ps, v.1 ≤ ps.foldl peakStep m0 := by
  induction ps generalizing m0 with
  | nil => intro v hv; cases hv
  | cons w ws ih =>
    intro v hv
    rcases List.mem_cons.mp hv with hv | hv
    · subst hv
      refine le_trans ?_ (foldl_peakStep_ge_init ws (peakStep m0 v))
      rw [peakStep]
      split <;> [exact le_refl v.1; exact le_of_not_lt (by assumption)]
    · exact ih (peakStep m0 w) v hv

lemma foldl_peakStep_mem (ps : List (ℚ × GoTime)) (m0 : ℚ) :
    ps.foldl peakStep m0 = m0 ∨ ps.foldl peakStep m0 ∈ ps.map (·.1) := by
  induction ps generalizing m0 with
  | nil => left; rfl
  | cons w ws ih =>
    rcases ih (peakStep m0 w) with h | h
    · rw [List.foldl_cons, h, peakStep]
      split
      · right; simp
      · left; rfl
    · right
      rw [List.foldl_cons]
      simp only [List.map_cons, List.mem_cons]
      right
      exact h

/-- C2: after any non-empty sequence of pushes of finite float64 values into
a capacity-`c ≥ 1` buffer, `Min` is the minimum and `Peak` the maximum of
every value ever pushed, including evicted ones (`k > c` allowed). -/
theorem ringBuffer_lifetime_extrema (c : Int) (hc : 1 ≤ c)
    (ps : List (ℚ × GoTime)) (hne : ps ≠ [])
    (hbound : ∀ v ∈ ps, -maxFloat64 ≤ v.1 ∧ v.1 ≤ maxFloat64)
    (h : History) (hrun : pushAll (NewHistory c) ps = some h) :
    (h.Min ∈ ps.map (·.1) ∧ ∀ v ∈ ps, h.Min ≤ v.1) ∧
    (h.Peak ∈ ps.map (·.1) ∧ ∀ v ∈ ps, v.1 ≤ h.Peak) := by
  obtain ⟨h2, hrun2, _, _, hmin, hpeak⟩ := pushAll_spec c hc ps
  rw [hrun] at hrun2
  obtain rfl : h = h2 := Option.some.inj hrun2
  obtain ⟨v0, vs, rfl⟩ : ∃ v0 vs, ps = v0 :: vs := by
    cases ps with
    | nil => exact absurd rfl hne
    | cons a b => exact ⟨a, b, rfl⟩
  constructor
  · constructor
    · rcases foldl_minStep_mem (v0 :: vs) maxFloat64 with hm | hm
      · rw [hmin, hm]
        have h1 : h.Min ≤ v0.1 := by
          rw [hmin]
          exact foldl_minStep_le (v0 :: vs) maxFloat64 v0 (by simp)
        rw [hmin, hm] at h1
        have h2 := (hbound v0 (by simp)).2
        have : v0.1 = maxFloat64 := le_antisymm h2 h1
        rw [← this]
        simp
      · rw [hmin]
        exact hm
    · intro v hv
      rw [hmin]
      exact foldl_minStep_le (v0 :: vs) maxFloat64 v hv
  · constructor
    · rcases foldl_peakStep_mem (v0 :: vs) (-maxFloat64) with hm | hm
      · rw [hpeak, hm]
        have h1 : v0.1 ≤ h.Peak := by
          rw [hpeak]
          exact foldl_peakStep_ge (v0 :: vs) (-maxFloat64) v0 (by simp)
        rw [hpeak, hm] at h1
        have h2 := (hbound v0 (by simp)).1
        have : v0.1 = -maxFloat64 := le_antisymm h1 h2
        rw [← this]
        simp
      · rw [hpeak]
        exact hm
    · intro v hv
      rw [hpeak]
      exact foldl_peakStep_ge (v0 :: vs) (-maxFloat64) v hv

/-- Witness for C2: capacity 2, pushes `[30, 31, 32]` (so 30 is evicted):
`Min = 30`, `Peak = 32`. -/
theorem ringBuffer_lifetime_extrema_witness :
    (pushAll (NewHistory 2) [(30, none), (31, none), (32, none)]).map
        History.Min = some 30 ∧
    (pushAll (NewHistory 2) [(30, none), (31, none), (32, none)]).map
        History.Peak = some 32 := by
  obtain ⟨h, hrun, -, -, -, -⟩ := pushAll_spec 2 (by norm_num)
    [(30, none), (31, none), (32, none)]
  have hb : ∀ v ∈ [((30 : ℚ), (none : GoTime)), (31, none), (32, none)],
      -maxFloat64 ≤ v.1 ∧ v.1 ≤ maxFloat64 := by
    intro v hv
    fin_cases hv <;> constructor <;> rw [maxFloat64] <;> norm_num
  have hmain := ringBuffer_lifetime_extrema 2 (by norm_num)
    [(30, none), (31, none), (32, none)] (by simp) hb h hrun
  have hmem1 := hmain.1.1
  have hmem2 := hmain.2.1
  simp only [List.map_cons, List.map_nil, List.mem_cons,
    List.not_mem_nil, or_false] at hmem1 hmem2
  have hmin : h.Min = 30 := by
    rcases hmem1 with h1 | h1 | h1
    · exact h1
    · exfalso
      have h2 := hmain.1.2 (30, none) (by simp)
      rw [h1] at h2
      norm_num at h2
    · exfalso
      have h2 := hmain.1.2 (30, none) (by simp)
      rw [h1] at h2
      norm_num at h2
  have hpeak : h.Peak = 32 := by
    rcases hmem2 with h1 | h1 | h1
    · exfalso
      have h2 := hmain.2.2 (32, none) (by simp)
      rw [h1] at h2
      norm_num at h2
    · exfalso
      have h2 := hmain.2.2 (32, none) (by simp)
      rw [h1] at h2
      norm_num at h2
    · exact h1
  rw [hrun]
  simp [hmin, hpeak]

/-! src/chart.go -/

/-- Go's `int(x)` conversion on an exact rational value: truncation toward
zero (`Int.div` is T-division, matching float-to-int conversion). -/
def ratTrunc (q : ℚ) : Int := Int.tdiv q.num q.den

/-- src/chart.go: `span := rangeMax - rangeMin; if span <= 0 { span = 1 }`. -/
def effSpan (rangeMin rangeMax : ℚ) : ℚ :=
  if rangeMax - rangeMin ≤ 0 then 1 else rangeMax - rangeMin

/-- src/chart.go `tempColor` (lipgloss colors modelled by their 256-color
code strings). The Go literal `0.85` is written as the rational `85/100`. -/
def tempColor (v high crit : ℚ) (hasHigh hasCrit : Bool) : String :=
  if hasCrit = true ∧ crit ≤ v then "196"
  else if hasHigh = true ∧ high ≤ v then "208"
  else if hasHigh = true ∧ high * (85 / 100) ≤ v then "220"
  else "78"

/-- src/chart.go `RenderSparklinePoints` block selection:
`norm := (temp-rangeMin)/span` clamped into `[0,1]`, `idx := int(norm*7)`,
upper-clamped at 7 (the clamp on `norm` already makes `idx ≥ 0`). -/
def sparkIdx (temp rangeMin span : ℚ) : Nat :=
  (if 7 < ratTrunc (max 0 (min 1 ((temp - rangeMin) / span)) * 7) then 7
   else ratTrunc (max 0 (min 1 ((temp - rangeMin) / span)) * 7)).toNat

/-- src/chart.go minute-boundary test inside the render loop: a point is a
tick iff its time is non-zero and (its second is 0, or `i > 0`, the
previous point's time is non-zero, and the two minutes differ). -/
def isMinuteTick (pts : List HistoryPoint) (i : Nat) : Bool :=
  match pts.get? i with
  | none => false
  | some p =>
    match p.Time with
    | none => false
    | some c =>
      if c.second.val = 0 then true
      else if 0 < i then
        match pts.get? (i - 1) with
        | none => false
        | some q =>
          match q.Time with
          | none => false
          | some cq => decide (c.minute.val ≠ cq.minute.val)
      else false

/-- One rendered sparkline column, styling abstracted to its data: the dim
"no data" glyph `╌`, the tick glyph `│`, or an intensity block glyph with
its color and bold flag. Each Go `sb.WriteString(style.Render(ch))` call
contributes exactly one such visible glyph. -/
inductive SparkCell
  | pad
  | tick
  | block (idx : Nat) (color : String) (bold : Bool)
deriving DecidableEq, Repr

/-- src/chart.go: `if len(points) > width { points = points[len(points)-width:] }`. -/
def keepLastWidth (points : List HistoryPoint) (width : Int) : List HistoryPoint :=
  if width < (points.length : Int) then points.drop (points.length - width.toNat)
  else points

/-- The glyph drawn for point `i` of the (already truncated) point list. -/
def pointCell (pts : List HistoryPoint) (i : Nat)
    (rangeMin span high crit : ℚ) (hasHigh hasCrit : Bool) : SparkCell :=
  if isMinuteTick pts i then .tick
  else
    match pts.get? i with
    | none => .pad
    | some p =>
      .block (sparkIdx p.Temp rangeMin span)
        (tempColor p.Temp high crit hasHigh hasCrit)
        (hasCrit && decide (crit ≤ p.Temp))

/-- src/chart.go `RenderSparklinePoints` as the sequence of visible glyphs. -/
def RenderSparklinePoints (points : List HistoryPoint) (width : Int)
    (rangeMin rangeMax high crit : ℚ) (hasHigh hasCrit : Bool) : List SparkCell :=
  if width ≤ 0 then []
  else if points.length = 0 then List.replicate width.toNat .pad
  else
    List.replicate (width.toNat - (keepLastWidth points width).length) SparkCell.pad ++
      (List.range (keepLastWidth points width).length).map (fun i =>
        pointCell (keepLastWidth points width) i rangeMin
          (effSpan rangeMin rangeMax) high crit hasHigh hasCrit)

lemma keepLastWidth_length (points : List HistoryPoint) (width : Int)
    (hw : 0 < width) :
    (keepLastWidth points width).length = min points.length width.toNat := by
  rw [keepLastWidth]
  split
  · simp only [List.length_drop]
    omega
  · omega

/-- C3: the sparkline always has exactly `width` glyphs for `width > 0`
(`width` dim pad glyphs when there are no points), and is empty for
`width ≤ 0`. -/
theorem sparkline_render_width (points : List HistoryPoint) (width : Int)
    (rangeMin rangeMax high crit : ℚ) (hasHigh hasCrit : Bool) :
    (0 < width →
      (RenderSparklinePoints points width rangeMin rangeMax high crit
        hasHigh hasCrit).length = width.toNat) ∧
    (0 < width → points = [] →
      RenderSparklinePoints points width rangeMin rangeMax high crit
        hasHigh hasCrit = List.replicate width.toNat SparkCell.pad) ∧
    (width ≤ 0 →
      RenderSparklinePoints points width rangeMin rangeMax high crit
        hasHigh hasCrit = []) := by
  refine ⟨?_, ?_, ?_⟩
  · intro hw
    rw [RenderSparklinePoints, if_neg (by omega)]
    by_cases hp : points.length = 0
    · rw [if_pos hp]
      simp
    · rw [if_neg hp]
      have hl := keepLastWidth_length points width hw
      simp only [List.length_append, List.length_replicate, List.length_map,
        List.length_range]
      omega
  · intro hw hp
    subst hp
    rw [RenderSparklinePoints, if_neg (by omega)]
    simp
  · intro hw
    rw [RenderSparklinePoints, if_pos hw]

/-- Witness for C3 at width 3 with one point. -/
theorem sparkline_render_width_witness :
    (RenderSparklinePoints [⟨50, none⟩] 3 0 100 0 0 false false).length = 3 ∧
    RenderSparklinePoints [] 3 0 100 0 0 false false =
      List.replicate 3 SparkCell.pad ∧
    RenderSparklinePoints [⟨50, none⟩] (-1) 0 100 0 0 false false = [] := by
  refine ⟨(sparkline_render_width [⟨50, none⟩] 3 0 100 0 0 false false).1
      (by decide),
    (sparkline_render_width [] 3 0 100 0 0 false false).2.1 (by decide) rfl,
    (sparkline_render_width [⟨50, none⟩] (-1) 0 100 0 0 false false).2.2
      (by decide)⟩

lemma render_cell_at (points : List HistoryPoint) (width : Int)
    (rangeMin rangeMax high crit : ℚ) (hasHigh hasCrit : Bool)
    (hw : 0 < width) (hne : points ≠ []) (i : Nat)
    (hi : i < (keepLastWidth points width).length) :
    (RenderSparklinePoints points width rangeMin rangeMax high crit
        hasHigh hasCrit).get?
      ((width.toNat - (keepLastWidth points width).length) + i) =
    some (pointCell (keepLastWidth points width) i
      rangeMin (effSpan rangeMin rangeMax) high crit hasHigh hasCrit) := by
  rw [RenderSparklinePoints, if_neg (by omega),
    if_neg (by simpa using hne)]
  rw [List.get?_append_right (by simp)]
  simp only [List.length_replicate, Nat.add_sub_cancel_left]
  rw [List.get?_map, List.get?_range hi]
  rfl

/-- C4: in the rendered sparkline, a (truncated-window) point with a
non-zero timestamp whose second is 0 always draws the tick glyph; a point
with a zero timestamp never draws the tick glyph; and a point with a
non-zero timestamp and non-zero second draws the tick glyph exactly when
the previous rendered point has a non-zero timestamp in a different
minute. -/
theorem sparkline_tick_rule (points : List HistoryPoint) (width : Int)
    (rangeMin rangeMax high crit : ℚ) (hasHigh hasCrit : Bool)
    (hw : 0 < width) (hne : points ≠ [])
    (pts : List HistoryPoint) (hpts : pts = keepLastWidth points width)
    (padLen : Nat) (hpad : padLen = width.toNat - pts.length)
    (cells : List SparkCell)
    (hcells : cells = RenderSparklinePoints points width rangeMin rangeMax
      high crit hasHigh hasCrit)
    (i : Nat) (p : HistoryPoint) (hp : pts.get? i = some p) :
    (∀ c, p.Time = some c → c.second.val = 0 →
      cells.get? (padLen + i) = some SparkCell.tick) ∧
    (p.Time = none → cells.get? (padLen + i) ≠ some SparkCell.tick) ∧
    (∀ c, p.Time = some c → c.second.val ≠ 0 →
      (cells.get? (padLen + i) = some SparkCell.tick ↔
        0 < i ∧ ∃ q cq, pts.get? (i - 1) = some q ∧ q.Time = some cq ∧
          cq.minute.val ≠ c.minute.val)) := by
  subst hpts hpad hcells
  have hi : i < (keepLastWidth points width).length := by
    have := List.get?_eq_some.mp hp
    exact this.1
  have hcell := render_cell_at points width rangeMin rangeMax high crit
    hasHigh hasCrit hw hne i hi
  rw [hcell]
  refine ⟨?_, ?_, ?_⟩
  · intro c hc hsec
    have htick : isMinuteTick (keepLastWidth points width) i = true := by
      simp only [isMinuteTick, hp, hc]
      rw [if_pos hsec]
    rw [pointCell, if_pos htick]
  · intro hc
    have htick : isMinuteTick (keepLastWidth points width) i = false := by
      simp only [isMinuteTick, hp, hc]
    rw [pointCell, if_neg (by rw [htick]; exact Bool.false_ne_true)]
    simp only [hp]
    simp
  · intro c hc hsec
    rw [pointCell]
    by_cases htick : isMinuteTick (keepLastWidth points width) i = true
    · rw [if_pos htick]
      simp only [Option.some.injEq, true_iff]
      simp only [isMinuteTick, hp, hc] at htick
      rw [if_neg hsec] at htick
      have hipos : 0 < i := by
        by_contra hi0
        rw [if_neg hi0] at htick
        exact Bool.false_ne_true htick
      rw [if_pos hipos] at htick
      refine ⟨hipos, ?_⟩
      cases hq : (keepLastWidth points width).get? (i - 1) with
      | none => rw [hq] at htick; exact absurd htick Bool.false_ne_true
      | some q =>
        rw [hq] at htick
        cases hqt : q.Time with
        | none =>
          simp only [hqt] at htick
          exact absurd htick Bool.false_ne_true
        | some cq =>
          simp only [hqt] at htick
          exact ⟨q, cq, rfl, hqt, Ne.symm (of_decide_eq_true htick)⟩
    · rw [if_neg htick]
      simp only [hp]
      constructor
      · intro hcontr
        exact absurd hcontr (by simp)
      · rintro ⟨hipos, q, cq, hq, hqt, hmin⟩
        exfalso
        apply htick
        simp only [isMinuteTick, hp, hc]
        rw [if_neg hsec, if_pos hipos, hq]
        simp only [hqt]
        exact decide_eq_true (Ne.symm hmin)

/-- Witness for C4: width 3, two points in different minutes, the second
point has non-zero seconds so it ticks via the minute change; plus a
seconds-zero point and a timeless point. -/
theorem sparkline_tick_rule_witness :
    (RenderSparklinePoints
        [⟨40, some ⟨⟨12, by decide⟩, ⟨4, by decide⟩, ⟨50, by decide⟩⟩⟩,
         ⟨41, some ⟨⟨12, by decide⟩, ⟨5, by decide⟩, ⟨10, by decide⟩⟩⟩]
        3 0 100 0 0 false false).get? (1 + 1) = some SparkCell.tick := by
  have h := sparkline_tick_rule
    [⟨40, some ⟨⟨12, by decide⟩, ⟨4, by decide⟩, ⟨50, by decide⟩⟩⟩,
     ⟨41, some ⟨⟨12, by decide⟩, ⟨5, by decide⟩, ⟨10, by decide⟩⟩⟩]
    3 0 100 0 0 false false (by decide) (by decide)
    _ rfl _ rfl _ rfl 1
    ⟨41, some ⟨⟨12, by decide⟩, ⟨5, by decide⟩, ⟨10, by decide⟩⟩⟩ (by decide)
  have h3 := (h.2.2 ⟨⟨12, by decide⟩, ⟨5, by decide⟩, ⟨10, by decide⟩⟩
    rfl (by decide)).mpr
  exact h3 ⟨by decide,
    ⟨40, some ⟨⟨12, by decide⟩, ⟨4, by decide⟩, ⟨50, by decide⟩⟩⟩,
    ⟨⟨12, by decide⟩, ⟨4, by decide⟩, ⟨50, by decide⟩⟩, by decide, rfl,
    by decide⟩

/-! src/chart.go `RenderTimeline` -/

/-- Go `p.Time.Format("15:04")`: five characters `HH:MM`, zero-padded. -/
def formatHHMM (c : Clock) : List Char :=
  [Nat.digitChar (c.hour.val / 10), Nat.digitChar (c.hour.val % 10), ':',
   Nat.digitChar (c.minute.val / 10), Nat.digitChar (c.minute.val % 10)]

/-- src/chart.go `RenderTimeline`'s local `tick` record: the column of a
minute tick and its `HH:MM` label. -/
structure TimeTick where
  pos : Nat
  label : List Char
deriving DecidableEq, Repr

/-- src/chart.go `RenderTimeline` tick collection: skip zero times, apply
the same minute-boundary rule as the sparkline, label with `HH:MM`. -/
def collectTicks (pts : List HistoryPoint) (padLen : Nat) : List TimeTick :=
  (List.range pts.length).filterMap (fun i =>
    match pts.get? i with
    | none => none
    | some p =>
      match p.Time with
      | none => none
      | some c =>
        if isMinuteTick pts i then some ⟨padLen + i, formatHHMM c⟩ else none)

/-- Candidate start column: `start := t.pos - 2; if start < 0 { start = 0 }`. -/
def startCol (tk : TimeTick) : Int := max ((tk.pos : Int) - 2) 0

/-- Candidate end column: `end := start + len(t.label)`. -/
def endCol (tk : TimeTick) : Int := startCol tk + tk.label.length

/-- Go `for j, ch := range t.label { line[start+j] = ch }`. -/
def writeChars : List Char → Nat → List Char → List Char
  | line, _, [] => line
  | line, s, ch :: rest => writeChars (line.set s ch) (s + 1) rest

/-- One iteration of src/chart.go's label-placement loop over the state
`(line, lastEnd)`: skip if the label would overrun the right edge
(`end > width`) or sit within one column of the previous label
(`start ≤ lastEnd+1`); otherwise write it and advance `lastEnd`. -/
def placeStep (width : Int) (st : List Char × Int) (tk : TimeTick) :
    List Char × Int :=
  if endCol tk > width then st
  else if startCol tk ≤ st.2 + 1 then st
  else (writeChars st.1 (startCol tk).toNat tk.label, endCol tk)

/-- src/chart.go `RenderTimeline` as the list of visible characters (the
single trailing `tickStyle.Render` wraps the whole line and is styling
only). Returns `[]` (Go `""`) when `points` is empty or `width ≤ 0`. -/
def RenderTimeline (points : List HistoryPoint) (width : Int) : List Char :=
  if points.length = 0 ∨ width ≤ 0 then []
  else
    ((collectTicks (keepLastWidth points width)
        (width.toNat - (keepLastWidth points width).length)).foldl
      (placeStep width) (List.replicate width.toNat ' ', -1)).1

/-- The same placement loop, recording accepted `(start, label)` pairs
instead of mutating the line (proof companion to `placeStep`). -/
def placeAcceptedStep (width : Int) (st : List (Int × List Char) × Int)
    (tk : TimeTick) : List (Int × List Char) × Int :=
  if endCol tk > width then st
  else if startCol tk ≤ st.2 + 1 then st
  else (st.1 ++ [(startCol tk, tk.label)], endCol tk)

/-- The labels the placement loop accepts, in placement order. -/
def placeAccepted (width : Int) (ticks : List TimeTick) :
    List (Int × List Char) :=
  (ticks.foldl (placeAcceptedStep width) ([], -1)).1

/-- Modelled from the spec (§4.4): walk candidates earliest-first, place a
candidate iff its window fits the right edge and its clamped start leaves
a ≥ 2-column gap after the previously placed label's end. -/
def specPlace (width : Int) : Int → List TimeTick → List (Int × List Char)
  | _, [] => []
  | lastEnd, tk :: rest =>
    if endCol tk ≤ width ∧ lastEnd + 1 < startCol tk then
      (startCol tk, tk.label) :: specPlace width (endCol tk) rest
    else specPlace width lastEnd rest

/-- The placement rule exactly as claim C5 words it: a candidate is
rejected iff its left-clamped start is ≤ the previous placed label's end
column + 1 — with no right-edge test. Used only to refute that reading. -/
def claimPlace : Int → List TimeTick → List (Int × List Char)
  | _, [] => []
  | lastEnd, tk :: rest =>
    if lastEnd + 1 < startCol tk then
      (startCol tk, tk.label) :: claimPlace (endCol tk) rest
    else claimPlace lastEnd rest
lemma placeAcceptedStep_edge (width : Int) (tk : TimeTick)
    (h1 : endCol tk > width) :
    ∀ st, placeAcceptedStep width st tk = st := by
  intro st
  rw [placeAcceptedStep, if_pos h1]

lemma placeAcceptedStep_near (width : Int) (tk : TimeTick) (le0 : Int)
    (h1 : ¬ endCol tk > width) (h2 : startCol tk ≤ le0 + 1) :
    ∀ acc0, placeAcceptedStep width (acc0, le0) tk = (acc0, le0) := by
  intro acc0
  rw [placeAcceptedStep, if_neg h1, if_pos h2]

lemma placeAcceptedStep_acc (width : Int) (tk : TimeTick) (le0 : Int)
    (h1 : ¬ endCol tk > width) (h2 : ¬ startCol tk ≤ le0 + 1) :
    ∀ acc0, placeAcceptedStep width (acc0, le0) tk =
      (acc0 ++ [(startCol tk, tk.label)], endCol tk) := by
  intro acc0
  rw [placeAcceptedStep, if_neg h1, if_neg h2]

lemma acc_fold_extend (width : Int) (ticks : List TimeTick) :
    ∀ (acc0 : List (Int × List Char)) (le0 : Int),
    (ticks.foldl (placeAcceptedStep width) (acc0, le0)).1 =
      acc0 ++ (ticks.foldl (placeAcceptedStep width) ([], le0)).1 ∧
    (ticks.foldl (placeAcceptedStep width) (acc0, le0)).2 =
      (ticks.foldl (placeAcceptedStep width) ([], le0)).2 := by
  induction ticks with
  | nil => intro acc0 le0; simp
  | cons tk ts ih =>
    intro acc0 le0
    simp only [List.foldl_cons]
    by_cases h1 : endCol tk > width
    · simp only [placeAcceptedStep_edge width tk h1]
      exact ih acc0 le0
    · by_cases h2 : startCol tk ≤ le0 + 1
      · simp only [placeAcceptedStep_near width tk le0 h1 h2]
        exact ih acc0 le0
      · simp only [placeAcceptedStep_acc width tk le0 h1 h2]
        obtain ⟨ha1, ha2⟩ := ih (acc0 ++ [(startCol tk, tk.label)]) (endCol tk)
        obtain ⟨hb1, hb2⟩ := ih ([] ++ [(startCol tk, tk.label)]) (endCol tk)
        refine ⟨?_, by rw [ha2, hb2]⟩
        rw [ha1, hb1, List.append_assoc]
        simp

lemma placeAccepted_eq_spec (width : Int) (ticks : List TimeTick) :
    ∀ le0 : Int, (ticks.foldl (placeAcceptedStep width) ([], le0)).1 =
      specPlace width le0 ticks := by
  induction ticks with
  | nil => intro le0; rfl
  | cons tk ts ih =>
    intro le0
    simp only [List.foldl_cons, specPlace]
    by_cases h1 : endCol tk > width
    · rw [if_neg (fun hcond => absurd hcond.1 (not_le.mpr h1))]
      simp only [placeAcceptedStep_edge width tk h1]
      exact ih le0
    · by_cases h2 : startCol tk ≤ le0 + 1
      · rw [if_neg (fun hcond => absurd hcond.2 (not_lt.mpr h2))]
        simp only [placeAcceptedStep_near width tk le0 h1 h2]
        exact ih le0
      · rw [if_pos ⟨not_lt.mp h1, not_le.mp h2⟩]
        simp only [placeAcceptedStep_acc width tk le0 h1 h2]
        rw [(acc_fold_extend width ts ([] ++ [(startCol tk, tk.label)])
          (endCol tk)).1, ih (endCol tk)]
        rfl

lemma placeAccepted_inv (width : Int) (ticks : List TimeTick) :
    ∀ (acc0 : List (Int × List Char)) (le0 : Int),
    (∀ x ∈ acc0, 0 ≤ x.1 ∧ x.1 + (x.2.length : Int) ≤ width ∧
      x.1 + (x.2.length : Int) ≤ le0) →
    acc0.Pairwise (fun a b => a.1 + (a.2.length : Int) + 1 < b.1) →
    (∀ x ∈ (ticks.foldl (placeAcceptedStep width) (acc0, le0)).1,
        0 ≤ x.1 ∧ x.1 + (x.2.length : Int) ≤ width ∧
        x.1 + (x.2.length : Int) ≤
          (ticks.foldl (placeAcceptedStep width) (acc0, le0)).2) ∧
    (ticks.foldl (placeAcceptedStep width) (acc0, le0)).1.Pairwise
      (fun a b => a.1 + (a.2.length : Int) + 1 < b.1) := by
  induction ticks with
  | nil => intro acc0 le0 hb hp; exact ⟨hb, hp⟩
  | cons tk ts ih =>
    intro acc0 le0 hb hp
    simp only [List.foldl_cons]
    by_cases h1 : endCol tk > width
    · simp only [placeAcceptedStep_edge width tk h1]
      exact ih acc0 le0 hb hp
    · by_cases h2 : startCol tk ≤ le0 + 1
      · simp only [placeAcceptedStep_near width tk le0 h1 h2]
        exact ih acc0 le0 hb hp
      · simp only [placeAcceptedStep_acc width tk le0 h1 h2]
        push_neg at h2
        apply ih
        · intro x hx
          rcases List.mem_append.mp hx with hx | hx
          · obtain ⟨hx0, hxw, hxle⟩ := hb x hx
            refine ⟨hx0, hxw, ?_⟩
            have hnn : (0 : Int) ≤ tk.label.length := Int.ofNat_nonneg _
            have hse : startCol tk ≤ endCol tk := by
              rw [endCol]; omega
            omega
          · obtain rfl : x = (startCol tk, tk.label) := by simpa using hx
            refine ⟨le_max_right _ 0, ?_, ?_⟩
            · exact not_lt.mp h1
            · simp [endCol]
        · rw [List.pairwise_append]
          refine ⟨hp, List.pairwise_singleton _ _, ?_⟩
          intro a ha b hb2
          obtain rfl : b = (startCol tk, tk.label) := by simpa using hb2
          obtain ⟨_, _, hale⟩ := hb a ha
          omega

lemma placeStep_edge (width : Int) (tk : TimeTick)
    (h1 : endCol tk > width) :
    ∀ st, placeStep width st tk = st := by
  intro st
  rw [placeStep, if_pos h1]

lemma placeStep_near (width : Int) (tk : TimeTick) (le0 : Int)
    (h1 : ¬ endCol tk > width) (h2 : startCol tk ≤ le0 + 1) :
    ∀ line0, placeStep width (line0, le0) tk = (line0, le0) := by
  intro line0
  rw [placeStep, if_neg h1, if_pos h2]

lemma placeStep_acc (width : Int) (tk : TimeTick) (le0 : Int)
    (h1 : ¬ endCol tk > width) (h2 : ¬ startCol tk ≤ le0 + 1) :
    ∀ line0, placeStep width (line0, le0) tk =
      (writeChars line0 (startCol tk).toNat tk.label, endCol tk) := by
  intro line0
  rw [placeStep, if_neg h1, if_neg h2]

/-- The line built by the placement loop is the blank line overwritten by
exactly the accepted labels, in order. -/
lemma place_line_eq (width : Int) (ticks : List TimeTick) :
    ∀ (line0 : List Char) (le0 : Int),
    (ticks.foldl (placeStep width) (line0, le0)).1 =
      ((ticks.foldl (placeAcceptedStep width) ([], le0)).1).foldl
        (fun l x => writeChars l x.1.toNat x.2) line0 := by
  induction ticks with
  | nil => intro line0 le0; rfl
  | cons tk ts ih =>
    intro line0 le0
    simp only [List.foldl_cons]
    by_cases h1 : endCol tk > width
    · simp only [placeStep_edge width tk h1, placeAcceptedStep_edge width tk h1]
      exact ih line0 le0
    · by_cases h2 : startCol tk ≤ le0 + 1
      · simp only [placeStep_near width tk le0 h1 h2,
          placeAcceptedStep_near width tk le0 h1 h2]
        exact ih line0 le0
      · simp only [placeStep_acc width tk le0 h1 h2,
          placeAcceptedStep_acc width tk le0 h1 h2]
        rw [ih (writeChars line0 (startCol tk).toNat tk.label) (endCol tk)]
        rw [(acc_fold_extend width ts ([] ++ [(startCol tk, tk.label)])
          (endCol tk)).1]
        simp

lemma writeChars_length (lab : List Char) :
    ∀ (line : List Char) (s : Nat),
    (writeChars line s lab).length = line.length := by
  induction lab with
  | nil => intro line s; rfl
  | cons ch rest ih =>
    intro line s
    rw [writeChars, ih, List.length_set]

lemma writeChars_get_out (lab : List Char) :
    ∀ (line : List Char) (s j : Nat), (j < s ∨ s + lab.length ≤ j) →
    (writeChars line s lab).get? j = line.get? j := by
  induction lab with
  | nil => intro line s j _; rfl
  | cons ch rest ih =>
    intro line s j hj
    simp only [List.length_cons] at hj
    rw [writeChars, ih (line.set s ch) (s + 1) j (by omega)]
    have hmn : s ≠ j := by omega
    rw [List.get?_set_ne ch line hmn]

lemma foldWrites_length (acc : List (Int × List Char)) :
    ∀ line0 : List Char,
    (acc.foldl (fun l x => writeChars l x.1.toNat x.2) line0).length =
      line0.length := by
  induction acc with
  | nil => intro line0; rfl
  | cons x rest ih =>
    intro line0
    rw [List.foldl_cons, ih, writeChars_length]

lemma foldWrites_get_out (acc : List (Int × List Char)) :
    ∀ (line0 : List Char) (j : Nat),
    (∀ x ∈ acc, 0 ≤ x.1) →
    (∀ x ∈ acc, (j : Int) < x.1 ∨ x.1 + (x.2.length : Int) ≤ (j : Int)) →
    (acc.foldl (fun l x => writeChars l x.1.toNat x.2) line0).get? j =
      line0.get? j := by
  induction acc with
  | nil => intro line0 j _ _; rfl
  | cons x rest ih =>
    intro line0 j hpos hout
    rw [List.foldl_cons]
    rw [ih _ j (fun y hy => hpos y (List.mem_cons_of_mem x hy))
      (fun y hy => hout y (List.mem_cons_of_mem x hy))]
    apply writeChars_get_out
    have h0 := hpos x (List.mem_cons_self x rest)
    rcases hout x (List.mem_cons_self x rest) with h | h
    · left; omega
    · right; omega

lemma replicate_get (n : Nat) (c : Char) (j : Nat) (hj : j < n) :
    (List.replicate n c).get? j = some c := by
  induction n generalizing j with
  | zero => omega
  | succ m ih =>
    cases j with
    | zero => rfl
    | succ jj => simpa [List.replicate_succ] using ih jj (by omega)

/-- C6 (amended): for `width > 0`, a non-empty point list yields a label
line of exactly `width` characters with a space at every column not
covered by a placed label; an empty point list yields the empty string. -/
theorem timeline_line_shape (points : List HistoryPoint) (width : Int)
    (hw : 0 < width) :
    (points = [] → RenderTimeline points width = []) ∧
    (points ≠ [] →
      (RenderTimeline points width).length = width.toNat ∧
      ∀ j : Nat, j < width.toNat →
        (∀ x ∈ placeAccepted width (collectTicks (keepLastWidth points width)
            (width.toNat - (keepLastWidth points width).length)),
          (j : Int) < x.1 ∨ x.1 + (x.2.length : Int) ≤ (j : Int)) →
        (RenderTimeline points width).get? j = some ' ') := by
  constructor
  · intro hp
    subst hp
    simp [RenderTimeline]
  · intro hne
    have hres : RenderTimeline points width =
        ((collectTicks (keepLastWidth points width)
            (width.toNat - (keepLastWidth points width).length)).foldl
          (placeStep width) (List.replicate width.toNat ' ', -1)).1 := by
      rw [RenderTimeline, if_neg]
      push_neg
      exact ⟨fun h => hne (List.length_eq_zero.mp h), by omega⟩
    rw [hres, place_line_eq]
    have hinv := placeAccepted_inv width
      (collectTicks (keepLastWidth points width)
        (width.toNat - (keepLastWidth points width).length)) [] (-1)
      (by intro x hx; cases hx) List.Pairwise.nil
    constructor
    · rw [foldWrites_length, List.length_replicate]
    · intro j hj hout
      rw [foldWrites_get_out _ _ j
        (fun x hx => (hinv.1 x hx).1) (fun x hx => hout x hx)]
      exact replicate_get width.toNat ' ' j hj

/-- Witness for C6's amended claim at `width = 4`, one timeless point. -/
theorem timeline_line_shape_witness :
    (RenderTimeline [⟨50, none⟩] 4).length = 4 ∧
    (RenderTimeline [⟨50, none⟩] 4).get? 0 = some ' ' := by
  have h := (timeline_line_shape [⟨50, none⟩] 4 (by decide)).2 (by decide)
  exact ⟨h.1, h.2 0 (by decide) (by decide)⟩

/-- Counterexample for C6 as stated: for the empty point sequence and
`width = 5 > 0` the code returns the empty string, not a 5-character line. -/
theorem timeline_empty_counterexample :
    (RenderTimeline [] 5).length ≠ 5 := by decide

/-- C5 (amended): the placed labels are in increasing column order with a
gap of at least two columns between consecutive labels (so no two column
ranges intersect), every placed label lies within `[0, width]`, and the
loop accepts a candidate exactly when it fits the right edge
(`start + len ≤ width`) and clears the previous label by at least two
columns (`start > lastEnd + 1`), earliest tick first (`specPlace`). -/
theorem timeline_label_nonoverlap (points : List HistoryPoint) (width : Int)
    (pts : List HistoryPoint) (hpts : pts = keepLastWidth points width)
    (padLen : Nat) (hpad : padLen = width.toNat - pts.length)
    (acc : List (Int × List Char))
    (hacc : acc = placeAccepted width (collectTicks pts padLen)) :
    (∀ x ∈ acc, 0 ≤ x.1 ∧ x.1 + (x.2.length : Int) ≤ width) ∧
    acc.Pairwise (fun a b => a.1 + (a.2.length : Int) + 1 < b.1) ∧
    acc = specPlace width (-1) (collectTicks pts padLen) := by
  subst hpts hpad hacc
  have hinv := placeAccepted_inv width
    (collectTicks (keepLastWidth points width)
      (width.toNat - (keepLastWidth points width).length)) [] (-1)
    (by intro x hx; cases hx) List.Pairwise.nil
  refine ⟨fun x hx => ⟨(hinv.1 x hx).1, (hinv.1 x hx).2.1⟩, hinv.2, ?_⟩
  exact placeAccepted_eq_spec width _ (-1)

/-- Ten concrete points whose fourth entry (`12:06:00`) yields a placed
timeline label; input for the C5 witness. -/
def tenPointsC5 : List HistoryPoint :=
  [⟨1, some ⟨12, 5, 10⟩⟩, ⟨2, some ⟨12, 5, 20⟩⟩, ⟨3, some ⟨12, 5, 30⟩⟩,
   ⟨4, some ⟨12, 6, 0⟩⟩, ⟨5, some ⟨12, 6, 5⟩⟩, ⟨6, some ⟨12, 6, 6⟩⟩,
   ⟨7, some ⟨12, 6, 7⟩⟩, ⟨8, some ⟨12, 6, 8⟩⟩, ⟨9, some ⟨12, 6, 9⟩⟩,
   ⟨10, some ⟨12, 6, 11⟩⟩]

/-- Witness for C5 (amended) on a run that places one label: ten points,
the fourth at `12:06:00` (a tick at column 3). -/
theorem timeline_label_nonoverlap_witness :
    List.Pairwise (fun a b => a.1 + (a.2.length : Int) + 1 < b.1)
      (placeAccepted 10 (collectTicks (keepLastWidth tenPointsC5 10)
        ((10 : Int).toNat - (keepLastWidth tenPointsC5 10).length))) :=
  (timeline_label_nonoverlap tenPointsC5 10 _ rfl _ rfl _ rfl).2.1

/-- Counterexample for C5 as stated: with one tick at column 5 of a
width-6 timeline, the candidate's clamped start (3) exceeds the previous
end + 1 (0), yet the loop rejects it because `start + 5 > width`; the
claimed "rejected exactly when start ≤ previous end + 1" rule
(`claimPlace`) would have placed it. -/
theorem timeline_reject_rule_counterexample :
    placeAccepted 6 (collectTicks (keepLastWidth [⟨36, some ⟨12, 5, 0⟩⟩] 6)
        ((6 : Int).toNat -
          (keepLastWidth [⟨36, some ⟨12, 5, 0⟩⟩] 6).length)) = [] ∧
    claimPlace (-1) (collectTicks (keepLastWidth [⟨36, some ⟨12, 5, 0⟩⟩] 6)
        ((6 : Int).toNat -
          (keepLastWidth [⟨36, some ⟨12, 5, 0⟩⟩] 6).length)) =
      [(3, formatHHMM ⟨12, 5, 0⟩)] := by
  constructor <;> decide

/-! src/chart.go `RenderThresholdScale` -/

/-- src/chart.go: `pos := int(float64(width-1) * (threshold - rangeMin) / span)`
(Go float-to-int conversion truncates toward zero). -/
def thresholdPos (width : Int) (t rangeMin span : ℚ) : Int :=
  ratTrunc (((width : ℚ) - 1) * (t - rangeMin) / span)

/-- One of the two identical marker-placement blocks of
`RenderThresholdScale`: if the threshold is present and above `rangeMin`,
and its column is within `[0, width)`, set that column to `'▪'`. -/
def markThreshold (has : Bool) (t rangeMin span : ℚ) (width : Int)
    (bar : List Char) : List Char :=
  if has = true ∧ t > rangeMin then
    if 0 ≤ thresholdPos width t rangeMin span ∧
        thresholdPos width t rangeMin span < width then
      bar.set (thresholdPos width t rangeMin span).toNat '▪'
    else bar
  else bar

/-- src/chart.go `RenderThresholdScale`'s `bar` array right before the
styling loop: dots, with the high then the critical marker written in. -/
def thresholdBar (rangeMin rangeMax high crit : ℚ) (hasHigh hasCrit : Bool)
    (width : Int) : List Char :=
  markThreshold hasCrit crit rangeMin (effSpan rangeMin rangeMax) width
    (markThreshold hasHigh high rangeMin (effSpan rangeMin rangeMax) width
      (List.replicate width.toNat '·'))

/-- One visible glyph of the threshold scale: the bold current-value
diamond (with its §4.2 color), a threshold marker square (with its own
color), or the neutral dot. -/
inductive ScaleCell
  | dot
  | marker (color : String)
  | diamond (color : String)
deriving DecidableEq, Repr

/-- src/chart.go `RenderThresholdScale` as the sequence of visible glyphs:
the current-value position (clamped into `[0, width-1]`) takes precedence,
then the marker squares (critical colored over high), then dots. -/
def RenderThresholdScale (current rangeMin rangeMax high crit : ℚ)
    (hasHigh hasCrit : Bool) (width : Int) : List ScaleCell :=
  if width ≤ 0 then []
  else
    (List.range width.toNat).map (fun (i : Nat) =>
      if (i : Int) = max 0 (min (width - 1)
          (thresholdPos width current rangeMin (effSpan rangeMin rangeMax)))
      then ScaleCell.diamond (tempColor current high crit hasHigh hasCrit)
      else if (thresholdBar rangeMin rangeMax high crit hasHigh hasCrit
          width).get? i = some '▪' then
        (if hasCrit = true ∧ crit > rangeMin ∧
            (i : Int) = thresholdPos width crit rangeMin
              (effSpan rangeMin rangeMax) then ScaleCell.marker "196"
         else if hasHigh = true ∧ high > rangeMin ∧
            (i : Int) = thresholdPos width high rangeMin
              (effSpan rangeMin rangeMax) then ScaleCell.marker "220"
         else ScaleCell.marker "240")
      else ScaleCell.dot)

lemma markThreshold_length (has : Bool) (t rangeMin span : ℚ) (width : Int)
    (bar : List Char) :
    (markThreshold has t rangeMin span width bar).length = bar.length := by
  rw [markThreshold]
  split
  · split
    · rw [List.length_set]
    · rfl
  · rfl

lemma markThreshold_get (has : Bool) (t rangeMin span : ℚ) (width : Int)
    (bar : List Char) (j : Nat) (hlen : bar.length = width.toNat)
    (hj : j < width.toNat) :
    ((markThreshold has t rangeMin span width bar).get? j = some '▪' ↔
      (has = true ∧ t > rangeMin ∧
        0 ≤ thresholdPos width t rangeMin span ∧
        thresholdPos width t rangeMin span < width ∧
        (j : Int) = thresholdPos width t rangeMin span) ∨
      bar.get? j = some '▪') := by
  rw [markThreshold]
  by_cases h1 : has = true ∧ t > rangeMin
  · rw [if_pos h1]
    by_cases h2 : 0 ≤ thresholdPos width t rangeMin span ∧
        thresholdPos width t rangeMin span < width
    · rw [if_pos h2]
      by_cases h3 : j = (thresholdPos width t rangeMin span).toNat
      · subst h3
        rw [List.get?_set_eq_of_lt '▪' (by rw [hlen]; omega)]
        constructor
        · intro _
          exact Or.inl ⟨h1.1, h1.2, h2.1, h2.2, by omega⟩
        · intro _
          rfl
      · have hmn : (thresholdPos width t rangeMin span).toNat ≠ j :=
          fun hcontr => h3 hcontr.symm
        rw [List.get?_set_ne '▪' bar hmn]
        constructor
        · exact Or.inr
        · rintro (⟨_, _, hp0, _, hjp⟩ | hb)
          · exact absurd (by omega) h3
          · exact hb
    · rw [if_neg h2]
      constructor
      · exact Or.inr
      · rintro (⟨_, _, hp0, hpw, _⟩ | hb)
        · exact absurd ⟨hp0, hpw⟩ h2
        · exact hb
  · rw [if_neg h1]
    constructor
    · exact Or.inr
    · rintro (⟨hh, ht, _⟩ | hb)
      · exact absurd ⟨hh, ht⟩ h1
      · exact hb

/-- C9 (amended): a column of the scale bar carries a threshold marker iff
it is the truncated column `int((width-1)*(threshold-rangeMin)/span)` of a
present threshold that is strictly above `rangeMin` and whose column lies
in `[0, width)` (span replaced by 1 when `rangeMax - rangeMin ≤ 0`). -/
theorem threshold_marker_placement (rangeMin rangeMax high crit : ℚ)
    (hasHigh hasCrit : Bool) (width : Int) (j : Nat)
    (hj : j < width.toNat) :
    ((thresholdBar rangeMin rangeMax high crit hasHigh hasCrit width).get? j
        = some '▪' ↔
      (hasHigh = true ∧ high > rangeMin ∧
        0 ≤ thresholdPos width high rangeMin (effSpan rangeMin rangeMax) ∧
        thresholdPos width high rangeMin (effSpan rangeMin rangeMax) < width ∧
        (j : Int) = thresholdPos width high rangeMin
          (effSpan rangeMin rangeMax)) ∨
      (hasCrit = true ∧ crit > rangeMin ∧
        0 ≤ thresholdPos width crit rangeMin (effSpan rangeMin rangeMax) ∧
        thresholdPos width crit rangeMin (effSpan rangeMin rangeMax) < width ∧
        (j : Int) = thresholdPos width crit rangeMin
          (effSpan rangeMin rangeMax))) := by
  rw [thresholdBar]
  rw [markThreshold_get hasCrit crit rangeMin (effSpan rangeMin rangeMax)
    width _ j (by rw [markThreshold_length, List.length_replicate]) hj]
  rw [markThreshold_get hasHigh high rangeMin (effSpan rangeMin rangeMax)
    width _ j (by rw [List.length_replicate]) hj]
  rw [replicate_get width.toNat '·' j hj]
  constructor
  · rintro (hc | hh | hdot)
    · exact Or.inr hc
    · exact Or.inl hh
    · exact absurd hdot (by decide)
  · rintro (hh | hc)
    · exact Or.inr (Or.inl hh)
    · exact Or.inl hc

/-- Truncation toward zero agrees with the floor on non-negative exact
values (the only case the marker formula produces, since `t > rangeMin`
and `span > 0`). -/
lemma ratTrunc_eq_floor (q : ℚ) (hq : 0 ≤ q) : ratTrunc q = ⌊q⌋ := by
  rw [ratTrunc, Rat.floor_def]
  exact Int.tdiv_eq_ediv (Rat.num_nonneg.mpr hq) (Int.ofNat_nonneg _)

/-- Witness for C9 (amended): width 10, range `[0,1]`, high `= 3/10`:
the bar carries a marker at column 2 (`int(9 * 0.3) = 2`). -/
theorem threshold_marker_placement_witness :
    (thresholdBar 0 1 (3/10) 0 true false 10).get? 2 = some '▪' := by
  have hspan : effSpan 0 1 = 1 := by norm_num [effSpan]
  have h1 : thresholdPos 10 (3/10) 0 (effSpan 0 1) = 2 := by
    rw [thresholdPos, hspan]
    have h2 : (((10 : Int) : ℚ) - 1) * ((3/10 : ℚ) - 0) / 1 = 27/10 := by
      norm_num
    rw [h2, ratTrunc_eq_floor _ (by norm_num), Int.floor_eq_iff]
    norm_num
  exact (threshold_marker_placement 0 1 (3/10) 0 true false 10 2
    (by decide)).mpr (Or.inl ⟨rfl, by norm_num, by omega, by omega, by omega⟩)

/-- Counterexample for C9 as stated: width 10, range `[0,1]`, high `0.5`:
`round(9 × 0.5) = 5` but the code truncates `9 × 0.5 = 4.5` to column 4 —
the marker lands on column 4 and column 5 carries none. -/
theorem threshold_round_counterexample :
    (thresholdBar 0 1 (1/2) 0 true false 10).get? 4 = some '▪' ∧
    (thresholdBar 0 1 (1/2) 0 true false 10).get? 5 ≠ some '▪' ∧
    round ((((10 : Int) : ℚ) - 1) * ((1/2 : ℚ) - 0) / effSpan 0 1) = 5 := by
  have hspan : effSpan 0 1 = 1 := by norm_num [effSpan]
  have h1 : thresholdPos 10 (1/2) 0 (effSpan 0 1) = 4 := by
    rw [thresholdPos, hspan]
    have h2 : (((10 : Int) : ℚ) - 1) * ((1/2 : ℚ) - 0) / 1 = 9/2 := by
      norm_num
    rw [h2, ratTrunc_eq_floor _ (by norm_num), Int.floor_eq_iff]
    norm_num
  refine ⟨?_, ?_, ?_⟩
  · exact (threshold_marker_placement 0 1 (1/2) 0 true false 10 4
      (by decide)).mpr
      (Or.inl ⟨rfl, by norm_num, by omega, by omega, by omega⟩)
  · intro hmark
    rcases (threshold_marker_placement 0 1 (1/2) 0 true false 10 5
        (by decide)).mp hmark with ⟨_, _, _, _, hcol⟩ | ⟨hcf, _⟩
    · omega
    · exact Bool.false_ne_true hcf
  · rw [hspan]
    have h2 : (((10 : Int) : ℚ) - 1) * ((1/2 : ℚ) - 0) / 1 = 9/2 := by
      norm_num
    rw [h2, round_eq]
    norm_num

/-! src/internal/viewer/viewer.go -/

/-- viewer.go `dataPoint`: one parsed sample. CSV times have whole-second
resolution, so `time.Time` values are modelled by their Unix second. -/
structure dataPoint where
  time : Int
  temp : ℚ
deriving DecidableEq, Repr

/-- `history.Point` as produced by `buildSparkWindow` (declared in the
internal/history package, whose source holds only its tests; the struct
shape `{Temp, Time}` is taken from its uses in viewer.go). -/
structure HPoint where
  Temp : ℚ
  Time : Int
deriving DecidableEq, Repr

/-- viewer.go `absDuration`. -/
def absDuration (d : Int) : Int := if d < 0 then -d else d

lemma absDuration_of_nonneg (d : Int) (h : 0 ≤ d) : absDuration d = d := by
  rw [absDuration, if_neg (by omega)]

/-- The loop of viewer.go `findTempAtTime`. Go updates `(best, bestDiff)`
when `diff < bestDiff` and then breaks when `p.time.After(t) && diff >
bestDiff` (against the updated `bestDiff`, so an improving step never
breaks); the two match arms reproduce exactly those two paths. -/
def findLoop (t : Int) : List dataPoint → ℚ → Int → ℚ
  | [], best, _ => best
  | p :: rest, best, bestDiff =>
    if absDuration (p.time - t) < bestDiff then
      findLoop t rest p.temp (absDuration (p.time - t))
    else if t < p.time ∧ bestDiff < absDuration (p.time - t) then best
    else findLoop t rest best bestDiff

/-- viewer.go `findTempAtTime`: seeds `(best, bestDiff)` from `pts[0]`
(an index-out-of-range fault on an empty slice, modelled as `none`) and
scans the whole slice. -/
def findTempAtTime (pts : List dataPoint) (t : Int) : Option ℚ :=
  match pts with
  | [] => none
  | p0 :: _ => some (findLoop t pts p0.temp (absDuration (p0.time - t)))

/-- The same scan without the early exit: the naive full argmin pass the
spec compares against. -/
def naiveScan (t : Int) : List dataPoint → ℚ → Int → ℚ
  | [], best, _ => best
  | p :: rest, best, bestDiff =>
    if absDuration (p.time - t) < bestDiff then
      naiveScan t rest p.temp (absDuration (p.time - t))
    else naiveScan t rest best bestDiff

/-- The first point of the list at minimal absolute time distance to `t`
(ties go to the earlier point). -/
def firstArgmin (t : Int) : List dataPoint → Option dataPoint
  | [] => none
  | p :: rest =>
    match firstArgmin t rest with
    | none => some p
    | some q =>
      if absDuration (p.time - t) ≤ absDuration (q.time - t) then some p
      else some q

lemma naiveScan_no_improve (t : Int) :
    ∀ (l : List dataPoint) (b : ℚ) (bd : Int),
    (∀ q ∈ l, bd ≤ absDuration (q.time - t)) → naiveScan t l b bd = b := by
  intro l
  induction l with
  | nil => intro b bd _; rfl
  | cons p rest ih =>
    intro b bd hall
    rw [naiveScan,
      if_neg (not_lt.mpr (hall p (List.mem_cons_self p rest)))]
    exact ih b bd (fun q hq => hall q (List.mem_cons_of_mem p hq))

/-- On a time-sorted list the early exit never changes the result. -/
lemma findLoop_eq_naiveScan (t : Int) :
    ∀ (l : List dataPoint) (b : ℚ) (bd : Int),
    l.Pairwise (fun a b2 => a.time ≤ b2.time) →
    findLoop t l b bd = naiveScan t l b bd := by
  intro l
  induction l with
  | nil => intro b bd _; rfl
  | cons p rest ih =>
    intro b bd hsort
    rw [List.pairwise_cons] at hsort
    obtain ⟨hhead, hrest⟩ := hsort
    rw [findLoop, naiveScan]
    by_cases himp : absDuration (p.time - t) < bd
    · rw [if_pos himp, if_pos himp]
      exact ih _ _ hrest
    · rw [if_neg himp, if_neg himp]
      by_cases hbrk : t < p.time ∧ bd < absDuration (p.time - t)
      · rw [if_pos hbrk]
        symm
        apply naiveScan_no_improve
        intro q hq
        have h1 : p.time ≤ q.time := hhead q hq
        have hp : absDuration (p.time - t) = p.time - t :=
          absDuration_of_nonneg _ (by omega)
        have hq2 : absDuration (q.time - t) = q.time - t :=
          absDuration_of_nonneg _ (by omega)
        omega
      · rw [if_neg hbrk]
        exact ih _ _ hrest

/-- The naive scan returns the accumulator unless the list's first argmin
strictly beats it. -/
lemma naiveScan_eq_argmin (t : Int) :
    ∀ (l : List dataPoint) (b : ℚ) (bd : Int),
    naiveScan t l b bd =
      match firstArgmin t l with
      | none => b
      | some q => if absDuration (q.time - t) < bd then q.temp else b := by
  intro l
  induction l with
  | nil => intro b bd; rfl
  | cons p rest ih =>
    intro b bd
    cases hfa : firstArgmin t rest with
    | none =>
      have hcons : firstArgmin t (p :: rest) = some p := by
        rw [firstArgmin, hfa]
      rw [naiveScan, hcons]
      by_cases h : absDuration (p.time - t) < bd
      · rw [if_pos h, ih, hfa]
        show p.temp = if absDuration (p.time - t) < bd then p.temp else b
        rw [if_pos h]
      · rw [if_neg h, ih, hfa]
        show b = if absDuration (p.time - t) < bd then p.temp else b
        rw [if_neg h]
    | some q =>
      have hcons : firstArgmin t (p :: rest) =
          if absDuration (p.time - t) ≤ absDuration (q.time - t) then some p
          else some q := by
        rw [firstArgmin, hfa]
      by_cases hpq : absDuration (p.time - t) ≤ absDuration (q.time - t)
      · rw [if_pos hpq] at hcons
        rw [naiveScan, hcons]
        by_cases h : absDuration (p.time - t) < bd
        · rw [if_pos h, ih, hfa]
          show (if absDuration (q.time - t) < absDuration (p.time - t)
              then q.temp else p.temp) =
            if absDuration (p.time - t) < bd then p.temp else b
          rw [if_neg (by omega), if_pos h]
        · rw [if_neg h, ih, hfa]
          show (if absDuration (q.time - t) < bd then q.temp else b) =
            if absDuration (p.time - t) < bd then p.temp else b
          rw [if_neg (by omega), if_neg h]
      · rw [if_neg hpq] at hcons
        rw [naiveScan, hcons]
        by_cases h : absDuration (p.time - t) < bd
        · rw [if_pos h, ih, hfa]
          show (if absDuration (q.time - t) < absDuration (p.time - t)
              then q.temp else p.temp) =
            if absDuration (q.time - t) < bd then q.temp else b
          rw [if_pos (by omega), if_pos (by omega)]
        · rw [if_neg h, ih, hfa]

lemma firstArgmin_ne_none (t : Int) (p : dataPoint) (l : List dataPoint) :
    firstArgmin t (p :: l) ≠ none := by
  rw [firstArgmin]
  cases firstArgmin t l with
  | none => simp
  | some q =>
    show (if absDuration (p.time - t) ≤ absDuration (q.time - t) then some p
      else some q) ≠ none
    split <;> simp

lemma firstArgmin_min (t : Int) :
    ∀ (l : List dataPoint) (q : dataPoint), firstArgmin t l = some q →
    ∀ x ∈ l, absDuration (q.time - t) ≤ absDuration (x.time - t) := by
  intro l
  induction l with
  | nil => intro q hq; cases hq
  | cons p rest ih =>
    intro q hq x hx
    cases hfa : firstArgmin t rest with
    | none =>
      have hcons : firstArgmin t (p :: rest) = some p := by
        rw [firstArgmin, hfa]
      rw [hcons] at hq
      cases hq
      rcases List.mem_cons.mp hx with hxp | hx
      · subst hxp; exact le_refl _
      · cases rest with
        | nil => cases hx
        | cons a bl => exact absurd hfa (firstArgmin_ne_none t a bl)
    | some r =>
      have hcons : firstArgmin t (p :: rest) =
          if absDuration (p.time - t) ≤ absDuration (r.time - t) then some p
          else some r := by
        rw [firstArgmin, hfa]
      rw [hcons] at hq
      by_cases hpr : absDuration (p.time - t) ≤ absDuration (r.time - t)
      · rw [if_pos hpr] at hq
        cases hq
        rcases List.mem_cons.mp hx with hxp | hx
        · subst hxp; exact le_refl _
        · exact le_trans hpr (ih r hfa x hx)
      · rw [if_neg hpr] at hq
        cases hq
        rcases List.mem_cons.mp hx with hxp | hx
        · subst hxp; omega
        · exact ih q hfa x hx

lemma firstArgmin_first (t : Int) :
    ∀ (l : List dataPoint) (q : dataPoint), firstArgmin t l = some q →
    ∃ i, l.get? i = some q ∧ ∀ j pj, j < i → l.get? j = some pj →
      absDuration (q.time - t) < absDuration (pj.time - t) := by
  intro l
  induction l with
  | nil => intro q hq; cases hq
  | cons p rest ih =>
    intro q hq
    cases hfa : firstArgmin t rest with
    | none =>
      have hcons : firstArgmin t (p :: rest) = some p := by
        rw [firstArgmin, hfa]
      rw [hcons] at hq
      cases hq
      exact ⟨0, rfl, fun j pj hj _ => absurd hj (by omega)⟩
    | some r =>
      have hcons : firstArgmin t (p :: rest) =
          if absDuration (p.time - t) ≤ absDuration (r.time - t) then some p
          else some r := by
        rw [firstArgmin, hfa]
      rw [hcons] at hq
      by_cases hpr : absDuration (p.time - t) ≤ absDuration (r.time - t)
      · rw [if_pos hpr] at hq
        cases hq
        exact ⟨0, rfl, fun j pj hj _ => absurd hj (by omega)⟩
      · rw [if_neg hpr] at hq
        cases hq
        obtain ⟨i, hi, hfirst⟩ := ih q hfa
        refine ⟨i + 1, hi, ?_⟩
        intro j pj hj hpj
        cases j with
        | zero =>
          cases hpj
          omega
        | succ jj => exact hfirst jj pj (by omega) hpj

/-- C8: on a non-empty time-sorted list, `findTempAtTime` returns the
temperature of the first point at minimal absolute distance to the target
time, and agrees with the naive full scan (the early exit is sound). -/
theorem nearest_time_lookup (pts : List dataPoint) (t : Int)
    (hne : pts ≠ [])
    (hsort : pts.Pairwise (fun a b => a.time ≤ b.time)) :
    ∃ pstar, firstArgmin t pts = some pstar ∧
      findTempAtTime pts t = some pstar.temp ∧
      (∀ q ∈ pts, absDuration (pstar.time - t) ≤ absDuration (q.time - t)) ∧
      (∃ i, pts.get? i = some pstar ∧ ∀ j pj, j < i → pts.get? j = some pj →
        absDuration (pstar.time - t) < absDuration (pj.time - t)) ∧
      (∀ p0 rest, pts = p0 :: rest →
        findTempAtTime pts t =
          some (naiveScan t pts p0.temp (absDuration (p0.time - t)))) := by
  obtain ⟨p0, rest, rfl⟩ : ∃ p0 rest, pts = p0 :: rest := by
    cases pts with
    | nil => exact absurd rfl hne
    | cons a b => exact ⟨a, b, rfl⟩
  obtain ⟨q, hq⟩ : ∃ q, firstArgmin t (p0 :: rest) = some q := by
    cases hfa : firstArgmin t rest with
    | none => exact ⟨p0, by rw [firstArgmin, hfa]⟩
    | some r =>
      have hcons : firstArgmin t (p0 :: rest) =
          if absDuration (p0.time - t) ≤ absDuration (r.time - t) then some p0
          else some r := by
        rw [firstArgmin, hfa]
      by_cases h : absDuration (p0.time - t) ≤ absDuration (r.time - t)
      · exact ⟨p0, by rw [hcons, if_pos h]⟩
      · exact ⟨r, by rw [hcons, if_neg h]⟩
  have hmin := firstArgmin_min t (p0 :: rest) q hq
  have hval : findTempAtTime (p0 :: rest) t = some q.temp := by
    rw [findTempAtTime]
    congr 1
    rw [findLoop_eq_naiveScan t _ _ _ hsort, naiveScan_eq_argmin, hq]
    show (if absDuration (q.time - t) < absDuration (p0.time - t)
        then q.temp else p0.temp) = q.temp
    by_cases hlt : absDuration (q.time - t) < absDuration (p0.time - t)
    · rw [if_pos hlt]
    · rw [if_neg hlt]
      -- no strict improvement over the seed, so the first argmin is the
      -- seed itself
      cases hfa : firstArgmin t rest with
      | none =>
        have hcons : firstArgmin t (p0 :: rest) = some p0 := by
          rw [firstArgmin, hfa]
        rw [hcons] at hq
        cases hq
        rfl
      | some r =>
        have hcons : firstArgmin t (p0 :: rest) =
            if absDuration (p0.time - t) ≤ absDuration (r.time - t)
            then some p0 else some r := by
          rw [firstArgmin, hfa]
        rw [hcons] at hq
        by_cases hpr : absDuration (p0.time - t) ≤ absDuration (r.time - t)
        · rw [if_pos hpr] at hq
          cases hq
          rfl
        · rw [if_neg hpr] at hq
          cases hq
          omega
  refine ⟨q, hq, hval, hmin, firstArgmin_first t _ q hq, ?_⟩
  intro p0' rest' heq
  cases heq
  rw [findTempAtTime]
  congr 1
  exact findLoop_eq_naiveScan t _ _ _ hsort

/-- Witness for C8: target 25 between points at times 10, 20, 40 — the
point at 20 (distance 5) wins. -/
theorem nearest_time_lookup_witness :
    findTempAtTime [⟨10, 1⟩, ⟨20, 2⟩, ⟨40, 3⟩] 25 = some 2 := by
  obtain ⟨pstar, hfa, hval, -, -, -⟩ := nearest_time_lookup
    [⟨10, 1⟩, ⟨20, 2⟩, ⟨40, 3⟩] 25 (by decide) (by decide)
  have : pstar = ⟨20, 2⟩ := by
    rw [show firstArgmin 25 [⟨10, 1⟩, ⟨20, 2⟩, ⟨40, 3⟩] =
      some ⟨20, 2⟩ from by decide] at hfa
    exact (Option.some.inj hfa).symm
  rw [hval, this]

/-- viewer.go `buildSparkWindow`'s `tempMap` lookup: the Go map is filled
in point order with later entries overwriting, so a key maps to the temp
of the last point carrying that Unix time. -/
def tempMap (pts : List dataPoint) (u : Int) : Option ℚ :=
  (pts.reverse.find? (fun p => p.time == u)).map (·.temp)

/-- One requested slot of viewer.go `buildSparkWindow`'s walk: the loop
body's lookup `tempMap[t.Unix()]` and emitted `history.Point{Temp, Time}`
for slot index `s`. -/
def slotPoint (pts : List dataPoint) (timeSlots : List Int) (s : Int) :
    Option HPoint :=
  (tempMap pts (timeSlots.getD s.toNat 0)).map
    (fun temp => ⟨temp, timeSlots.getD s.toNat 0⟩)

/-- viewer.go `buildSparkWindow`'s `result` after the loop: the Go loop
counts `i` from `width-1` down to `0` with `slotIdx := cursorIdx - i`, so
ascending `j := width-1-i` gives `slotIdx = cursorIdx - (width-1-j)`;
out-of-range slots and valueless slots are skipped. -/
def sparkWalk (pts : List dataPoint) (cursorIdx width : Int)
    (timeSlots : List Int) : List HPoint :=
  (List.range width.toNat).filterMap (fun (j : Nat) =>
    if cursorIdx - (width - 1 - (j : Int)) < 0 ∨
        (timeSlots.length : Int) ≤ cursorIdx - (width - 1 - (j : Int)) then
      none
    else slotPoint pts timeSlots (cursorIdx - (width - 1 - (j : Int))))

/-- viewer.go `buildSparkWindow`: the walk, then the cursor's point is
appended if the series has a value there and it is not already last.
Indexing `timeSlots[cursorIdx]` out of range is a fault (`none`). -/
def buildSparkWindow (pts : List dataPoint) (cursorIdx width : Int)
    (timeSlots : List Int) : Option (List HPoint) :=
  if pts.length = 0 ∨ timeSlots.length = 0 then some []
  else if cursorIdx < 0 ∨ (timeSlots.length : Int) ≤ cursorIdx then none
  else
    match tempMap pts (timeSlots.getD cursorIdx.toNat 0) with
    | some temp =>
      match (sparkWalk pts cursorIdx width timeSlots).getLast? with
      | none => some (sparkWalk pts cursorIdx width timeSlots ++
          [⟨temp, timeSlots.getD cursorIdx.toNat 0⟩])
      | some lastP =>
        if lastP.Time ≠ timeSlots.getD cursorIdx.toNat 0 then
          some (sparkWalk pts cursorIdx width timeSlots ++
            [⟨temp, timeSlots.getD cursorIdx.toNat 0⟩])
        else some (sparkWalk pts cursorIdx width timeSlots)
    | none => some (sparkWalk pts cursorIdx width timeSlots)

/-- First requested slot index: `max(0, cursorIdx - width + 1)` (§4.6). -/
def slotLo (cursorIdx width : Int) : Int := max 0 (cursorIdx - width + 1)

/-- `n` consecutive integers starting at `lo`. -/
def intRange (lo : Int) (n : Nat) : List Int :=
  (List.range n).map (fun (k : Nat) => lo + (k : Int))

/-- The in-range requested slot indices `slotLo … cursorIdx`, in order. -/
def slotList (cursorIdx width : Int) : List Int :=
  intRange (slotLo cursorIdx width)
    (cursorIdx + 1 - slotLo cursorIdx width).toNat

/-- Modelled from the spec (§4.6): one point per in-range requested slot
at whose timestamp the series has a value, in slot order, gaps skipped. -/
def specWindow (pts : List dataPoint) (cursorIdx width : Int)
    (timeSlots : List Int) : List HPoint :=
  (slotList cursorIdx width).filterMap (slotPoint pts timeSlots)

lemma intRange_append (lo : Int) (a b : Nat) :
    intRange lo (a + b) = intRange lo a ++ intRange (lo + a) b := by
  rw [intRange, List.range_add, List.map_append, List.map_map]
  congr 1
  rw [intRange]
  apply List.map_congr_left
  intro k _
  simp
  omega

lemma intRange_succ (lo : Int) (n : Nat) :
    intRange lo (n + 1) = intRange lo n ++ [lo + n] := by
  rw [intRange, List.range_succ, List.map_append, List.map_singleton]
  rfl

lemma mem_intRange (lo : Int) (n : Nat) (s : Int) :
    s ∈ intRange lo n ↔ ∃ k : Nat, k < n ∧ s = lo + k := by
  rw [intRange]
  simp only [List.mem_map, List.mem_range]
  constructor
  · rintro ⟨k, hk, rfl⟩
    exact ⟨k, hk, rfl⟩
  · rintro ⟨k, hk, rfl⟩
    exact ⟨k, hk, rfl⟩

lemma filterMap_length_add {α β : Type} (f : α → Option β) (l : List α) :
    (l.filterMap f).length +
      (l.filter (fun x => (f x).isNone)).length = l.length := by
  induction l with
  | nil => rfl
  | cons x rest ih =>
    cases hfx : f x with
    | none =>
      simp only [List.filterMap_cons, List.filter_cons, hfx,
        Option.isNone_none, if_true, List.length_cons]
      omega
    | some y =>
      simp only [List.filterMap_cons, List.filter_cons, hfx,
        Option.isNone_some, Bool.false_eq_true, if_false, List.length_cons]
      omega

lemma pairwise_time_inj (pts : List dataPoint)
    (hmono : pts.Pairwise (fun a b => a.time < b.time)) :
    ∀ p ∈ pts, ∀ q ∈ pts, p.time = q.time → p = q := by
  induction pts with
  | nil => intro p hp; cases hp
  | cons a rest ih =>
    rw [List.pairwise_cons] at hmono
    intro p hp q hq heq
    rcases List.mem_cons.mp hp with hpa | hp
    · rcases List.mem_cons.mp hq with hqa | hq
      · rw [hpa, hqa]
      · exfalso
        have h1 := hmono.1 q hq
        rw [hpa] at heq
        omega
    · rcases List.mem_cons.mp hq with hqa | hq
      · exfalso
        have h1 := hmono.1 p hp
        rw [hqa] at heq
        omega
      · exact ih hmono.2 p hp q hq heq

lemma tempMap_isSome_iff (pts : List dataPoint) (u : Int) :
    (tempMap pts u).isSome ↔ ∃ p ∈ pts, p.time = u := by
  rw [tempMap]
  constructor
  · intro h
    have h2 : (pts.reverse.find? (fun p => p.time == u)).isSome := by
      cases hf : pts.reverse.find? (fun p => p.time == u) with
      | none => rw [hf] at h; simp at h
      | some q => simp
    rw [List.find?_isSome] at h2
    obtain ⟨x, hx, hpx⟩ := h2
    exact ⟨x, List.mem_reverse.mp hx, by simpa using hpx⟩
  · rintro ⟨p, hp, hpt⟩
    have h2 : (pts.reverse.find? (fun q => q.time == u)).isSome :=
      List.find?_isSome.mpr ⟨p, List.mem_reverse.mpr hp, by simpa using hpt⟩
    cases hf : pts.reverse.find? (fun q => q.time == u) with
    | none => rw [hf] at h2; simp at h2
    | some q => simp

/-- With strictly increasing timestamps the lookup is exactly "the series
has a value at this time, namely that point's". -/
lemma tempMap_eq_of_mem (pts : List dataPoint)
    (hmono : pts.Pairwise (fun a b => a.time < b.time))
    (p : dataPoint) (hp : p ∈ pts) :
    tempMap pts p.time = some p.temp := by
  cases hfind : pts.reverse.find? (fun q => q.time == p.time) with
  | none =>
    exfalso
    have hsome : (tempMap pts p.time).isSome :=
      (tempMap_isSome_iff pts p.time).mpr ⟨p, hp, rfl⟩
    rw [tempMap, hfind] at hsome
    simp at hsome
  | some q =>
    have hqt : q.time = p.time := by simpa using List.find?_some hfind
    have hqm : q ∈ pts :=
      List.mem_reverse.mp (List.mem_of_find?_eq_some hfind)
    have hqp : q = p := pairwise_time_inj pts hmono q hqm p hp hqt
    rw [tempMap, hfind, hqp]
    rfl

/-- The guarded descending-index walk visits exactly the in-range slot
indices `slotLo … cursorIdx` in ascending order. -/
lemma guarded_walk_eq {β : Type} (f : Int → Option β)
    (len cursorIdx width : Int) (hc0 : 0 ≤ cursorIdx) (hcl : cursorIdx < len) :
    (List.range width.toNat).filterMap (fun (j : Nat) =>
        if cursorIdx - (width - 1 - (j : Int)) < 0 ∨
            len ≤ cursorIdx - (width - 1 - (j : Int)) then none
        else f (cursorIdx - (width - 1 - (j : Int)))) =
      (intRange (slotLo cursorIdx width)
        (cursorIdx + 1 - slotLo cursorIdx width).toNat).filterMap f := by
  have h1 : 0 ≤ slotLo cursorIdx width := le_max_left _ _
  have h2 : cursorIdx - width + 1 ≤ slotLo cursorIdx width := le_max_right _ _
  have h3 : slotLo cursorIdx width = 0 ∨
      slotLo cursorIdx width = cursorIdx - width + 1 := max_choice _ _
  have hsplit : width.toNat =
      (slotLo cursorIdx width - (cursorIdx - width + 1)).toNat +
        (cursorIdx + 1 - slotLo cursorIdx width).toNat := by
    rcases h3 with h | h <;> omega
  rw [hsplit, List.range_add, List.filterMap_append, List.filterMap_map]
  have hfirst : (List.range
      (slotLo cursorIdx width - (cursorIdx - width + 1)).toNat).filterMap
        (fun (j : Nat) =>
          if cursorIdx - (width - 1 - (j : Int)) < 0 ∨
              len ≤ cursorIdx - (width - 1 - (j : Int)) then none
          else f (cursorIdx - (width - 1 - (j : Int)))) = [] := by
    rw [List.filterMap_eq_nil_iff]
    intro j hj
    rw [List.mem_range] at hj
    rw [if_pos]
    left
    rcases h3 with h | h <;> omega
  rw [hfirst, List.nil_append]
  rw [intRange, List.filterMap_map]
  apply List.filterMap_congr
  intro k hk
  rw [List.mem_range] at hk
  simp only [Function.comp_apply]
  have harg : cursorIdx - (width - 1 -
      (((slotLo cursorIdx width - (cursorIdx - width + 1)).toNat + k : Nat) :
        Int)) = slotLo cursorIdx width + (k : Int) := by
    push_cast
    rcases h3 with h | h <;> omega
  rw [harg, if_neg]
  push_neg
  constructor <;> rcases h3 with h | h <;> omega

/-- When the series has a value at the cursor's time, the last element of
the spec window is precisely the cursor's point. -/
lemma specWindow_getLast (pts : List dataPoint) (cursorIdx width : Int)
    (timeSlots : List Int) (hc0 : 0 ≤ cursorIdx) (hw : 1 ≤ width)
    (v : ℚ) (hv : tempMap pts (timeSlots.getD cursorIdx.toNat 0) = some v) :
    (specWindow pts cursorIdx width timeSlots).getLast? =
      some ⟨v, timeSlots.getD cursorIdx.toNat 0⟩ := by
  have h1 : 0 ≤ slotLo cursorIdx width := le_max_left _ _
  have h2 : cursorIdx - width + 1 ≤ slotLo cursorIdx width := le_max_right _ _
  have h3 : slotLo cursorIdx width = 0 ∨
      slotLo cursorIdx width = cursorIdx - width + 1 := max_choice _ _
  obtain ⟨m, hm⟩ : ∃ m, (cursorIdx + 1 - slotLo cursorIdx width).toNat
      = m + 1 := by
    refine ⟨(cursorIdx - slotLo cursorIdx width).toNat, ?_⟩
    rcases h3 with h | h <;> omega
  have hcur : slotLo cursorIdx width + (m : Int) = cursorIdx := by
    rcases h3 with h | h <;> omega
  rw [specWindow, slotList, hm, intRange_succ, List.filterMap_append]
  have hf : (List.filterMap (slotPoint pts timeSlots)
      [slotLo cursorIdx width + (m : Int)]) =
      [⟨v, timeSlots.getD cursorIdx.toNat 0⟩] := by
    rw [hcur]
    rw [List.filterMap_cons]
    rw [show slotPoint pts timeSlots cursorIdx =
      some ⟨v, timeSlots.getD cursorIdx.toNat 0⟩ from by
        rw [slotPoint, hv]; rfl]
    rfl
  rw [hf, List.getLast?_concat]

/-- C7: with a non-empty strictly-increasing series, strictly increasing
time slots, `width ≥ 1` and an in-range cursor, `buildSparkWindow`
succeeds and returns exactly one point per in-range requested slot
(`max(0, cursorIdx-width+1) … cursorIdx`) at whose timestamp the series
has a value, in slot order, skipping (never zero-filling) valueless
slots — so with `m` missing slots out of `requested` it returns
`requested - m` points — and ends with the cursor's point whenever the
series has a value at the cursor's timestamp. -/
theorem windowBuilder_gap_preservation (pts : List dataPoint)
    (cursorIdx width : Int) (timeSlots : List Int)
    (hne : pts ≠ [])
    (hmono : pts.Pairwise (fun a b => a.time < b.time))
    (hslots : timeSlots.Pairwise (fun a b => a < b))
    (hw : 1 ≤ width) (hc0 : 0 ≤ cursorIdx)
    (hcl : cursorIdx < (timeSlots.length : Int)) :
    ∃ res, buildSparkWindow pts cursorIdx width timeSlots = some res ∧
      res = specWindow pts cursorIdx width timeSlots ∧
      res.length + ((slotList cursorIdx width).filter
          (fun s => (tempMap pts (timeSlots.getD s.toNat 0)).isNone)).length
        = (slotList cursorIdx width).length ∧
      (slotList cursorIdx width).length
        = min width.toNat (cursorIdx + 1).toNat ∧
      (∀ u, (tempMap pts u).isSome ↔ ∃ p ∈ pts, p.time = u) ∧
      (∀ p ∈ pts, tempMap pts p.time = some p.temp) ∧
      (∀ v, tempMap pts (timeSlots.getD cursorIdx.toNat 0) = some v →
        res.getLast? = some ⟨v, timeSlots.getD cursorIdx.toNat 0⟩) := by
  have hwalkEq : sparkWalk pts cursorIdx width timeSlots =
      specWindow pts cursorIdx width timeSlots := by
    rw [sparkWalk, specWindow, slotList]
    exact guarded_walk_eq (slotPoint pts timeSlots) (timeSlots.length : Int)
      cursorIdx width hc0 hcl
  have hpts0 : ¬ (pts.length = 0 ∨ timeSlots.length = 0) := by
    push_neg
    exact ⟨fun h => hne (List.length_eq_zero.mp h), by omega⟩
  have hcur0 : ¬ (cursorIdx < 0 ∨ (timeSlots.length : Int) ≤ cursorIdx) := by
    push_neg
    exact ⟨hc0, hcl⟩
  have hbw : buildSparkWindow pts cursorIdx width timeSlots =
      some (specWindow pts cursorIdx width timeSlots) := by
    rw [buildSparkWindow, if_neg hpts0, if_neg hcur0]
    cases hct : tempMap pts (timeSlots.getD cursorIdx.toNat 0) with
    | none =>
      show some (sparkWalk pts cursorIdx width timeSlots) = _
      rw [hwalkEq]
    | some v =>
      have hlast := specWindow_getLast pts cursorIdx width timeSlots
        hc0 hw v hct
      show (match (sparkWalk pts cursorIdx width timeSlots).getLast? with
        | none => some (sparkWalk pts cursorIdx width timeSlots ++
            [(⟨v, timeSlots.getD cursorIdx.toNat 0⟩ : HPoint)])
        | some lastP =>
          if lastP.Time ≠ timeSlots.getD cursorIdx.toNat 0 then
            some (sparkWalk pts cursorIdx width timeSlots ++
              [(⟨v, timeSlots.getD cursorIdx.toNat 0⟩ : HPoint)])
          else some (sparkWalk pts cursorIdx width timeSlots)) = _
      rw [hwalkEq, hlast]
      show (if (⟨v, timeSlots.getD cursorIdx.toNat 0⟩ : HPoint).Time ≠
          timeSlots.getD cursorIdx.toNat 0 then _ else _) = _
      rw [if_neg (by simp)]
  refine ⟨specWindow pts cursorIdx width timeSlots, hbw, rfl, ?_, ?_,
    fun u => tempMap_isSome_iff pts u,
    fun p hp => tempMap_eq_of_mem pts hmono p hp, ?_⟩
  · rw [specWindow]
    have hcong : (slotList cursorIdx width).filter
        (fun s => (tempMap pts (timeSlots.getD s.toNat 0)).isNone) =
        (slotList cursorIdx width).filter
        (fun s => (slotPoint pts timeSlots s).isNone) := by
      apply List.filter_congr
      intro s _
      rw [slotPoint]
      cases tempMap pts (timeSlots.getD s.toNat 0) <;> rfl
    rw [hcong]
    exact filterMap_length_add (slotPoint pts timeSlots) _
  · rw [slotList, intRange, List.length_map, List.length_range]
    have h1 : (0 : Int) ≤ slotLo cursorIdx width := le_max_left _ _
    have h2 : cursorIdx - width + 1 ≤ slotLo cursorIdx width :=
      le_max_right _ _
    have h3 : slotLo cursorIdx width = 0 ∨
        slotLo cursorIdx width = cursorIdx - width + 1 := max_choice _ _
    rcases h3 with h | h <;> rw [h] at h1 h2 ⊢ <;> omega
  · intro v hv
    exact specWindow_getLast pts cursorIdx width timeSlots hc0 hw v hv

/-- Witness for C7: series with values at times 100, 200, 400; slots
`[100,200,300,400]`, cursor 3, width 3 — slot 300 is skipped, cursor
point last. -/
theorem windowBuilder_gap_preservation_witness :
    buildSparkWindow [⟨100, 20⟩, ⟨200, 21⟩, ⟨400, 23⟩] 3 3
      [100, 200, 300, 400] = some [⟨21, 200⟩, ⟨23, 400⟩] := by
  obtain ⟨res, hbw, hspec, -, -, -, -, -⟩ := windowBuilder_gap_preservation
    [⟨100, 20⟩, ⟨200, 21⟩, ⟨400, 23⟩] 3 3 [100, 200, 300, 400]
    (by decide) (by decide) (by decide) (by decide) (by decide) (by decide)
  rw [hbw, hspec]
  decide

/-! C10: totality of the core operations over their documented domains. -/

/-- A store is well-formed when its capacity is positive and every stored
buffer has positive capacity (all buffers are created by `NewHistory`
with the store's capacity, so `Record` preserves this). -/
def storeWF (s : HistoryStore) : Prop :=
  1 ≤ s.Capacity ∧ ∀ k h, s.Data k = some h → 1 ≤ h.Max

lemma Push_isSome (h : History) (v : ℚ) (t : GoTime) (hmax : 1 ≤ h.Max) :
    (h.Push v t).isSome := by
  cases hps : h.Points with
  | nil =>
    have hroom : ¬ ((h.Points.length : Int) ≥ h.Max) := by
      rw [hps]
      simp
      omega
    rw [Push_room h v t hroom]
    rfl
  | cons p0 tl =>
    by_cases hfull : (h.Points.length : Int) ≥ h.Max
    · rw [Push_full h v t p0 tl hps hfull]
      rfl
    · rw [Push_room h v t hfull]
      rfl

/-- C10: every core operation is total over its documented input domain —
`Push` always succeeds on a positive-capacity buffer (evicting at
capacity), so do iterated pushes and `Record`; an empty history has zero
average and zero `Last`; `LastN`/`LastNPoints` return empty for `n ≤ 0`;
all three renderers return the empty string for non-positive width and
the scale renderer always fills `width` cells otherwise; `FindNearest` is
total on non-empty input; `Build` is total whenever its cursor is a valid
index (or an empty-input early return applies). -/
theorem core_operations_total
    (h : History) (v : ℚ) (tc : GoTime) (c : Int) (vs : List (ℚ × GoTime))
    (s : HistoryStore) (key : String)
    (points : List HistoryPoint) (width : Int)
    (rangeMin rangeMax high crit current : ℚ) (hasHigh hasCrit : Bool)
    (n : Int) (pts : List dataPoint) (t cursorIdx : Int)
    (timeSlots : List Int) :
    (1 ≤ h.Max → (h.Push v tc).isSome) ∧
    (1 ≤ c → (pushAll (NewHistory c) vs).isSome) ∧
    (storeWF s → (s.Record key v tc).isSome) ∧
    ((NewHistory c).Avg = 0) ∧
    (h.Points = [] → h.Avg = 0 ∧ h.Last = 0) ∧
    (n ≤ 0 → h.LastN n = [] ∧ h.LastNPoints n = []) ∧
    (width ≤ 0 →
      RenderSparklinePoints points width rangeMin rangeMax high crit
        hasHigh hasCrit = [] ∧
      RenderTimeline points width = [] ∧
      RenderThresholdScale current rangeMin rangeMax high crit
        hasHigh hasCrit width = []) ∧
    (0 < width →
      (RenderThresholdScale current rangeMin rangeMax high crit
        hasHigh hasCrit width).length = width.toNat) ∧
    (pts ≠ [] → (findTempAtTime pts t).isSome) ∧
    (pts.length = 0 ∨ timeSlots.length = 0 ∨
        (0 ≤ cursorIdx ∧ cursorIdx < (timeSlots.length : Int)) →
      (buildSparkWindow pts cursorIdx width timeSlots).isSome) := by
  refine ⟨?_, ?_, ?_, ?_, ?_, ?_, ?_, ?_, ?_, ?_⟩
  · exact Push_isSome h v tc
  · intro hc
    obtain ⟨h2, hrun, -, -, -, -⟩ := pushAll_spec c hc vs
    rw [hrun]
    rfl
  · intro hwf
    rw [HistoryStore.Record]
    cases hk : s.Data key with
    | some h0 =>
      have hpush := Push_isSome h0 v tc (hwf.2 key h0 hk)
      cases hp : h0.Push v tc with
      | none => rw [hp] at hpush; simp at hpush
      | some h2 => rfl
    | none =>
      have hpush := Push_isSome (NewHistory s.Capacity) v tc hwf.1
      cases hp : (NewHistory s.Capacity).Push v tc with
      | none => rw [hp] at hpush; simp at hpush
      | some h2 => rfl
  · rfl
  · intro hpt
    constructor
    · rw [History.Avg, if_pos (by rw [hpt]; rfl)]
    · rw [History.Last, hpt]
      rfl
  · intro hn
    exact ⟨by rw [History.LastN, if_pos (Or.inl hn)],
      by rw [History.LastNPoints, if_pos (Or.inl hn)]⟩
  · intro hwd
    exact ⟨by rw [RenderSparklinePoints, if_pos hwd],
      by rw [RenderTimeline, if_pos (Or.inr hwd)],
      by rw [RenderThresholdScale, if_pos hwd]⟩
  · intro hwd
    rw [RenderThresholdScale, if_neg (by omega), List.length_map,
      List.length_range]
  · intro hne
    cases pts with
    | nil => exact absurd rfl hne
    | cons p0 rest => rfl
  · intro hdom
    rw [buildSparkWindow]
    by_cases h1 : pts.length = 0 ∨ timeSlots.length = 0
    · rw [if_pos h1]
      rfl
    · rw [if_neg h1]
      have h2 : ¬ (cursorIdx < 0 ∨ (timeSlots.length : Int) ≤ cursorIdx) := by
        push_neg at h1
        rcases hdom with hd | hd | hd
        · exact absurd hd h1.1
        · exact absurd hd h1.2
        · push_neg
          exact ⟨hd.1, hd.2⟩
      rw [if_neg h2]
      cases tempMap pts (timeSlots.getD cursorIdx.toNat 0) with
      | none => rfl
      | some w =>
        cases (sparkWalk pts cursorIdx width timeSlots).getLast? with
        | none => rfl
        | some lastP =>
          show (if lastP.Time ≠ timeSlots.getD cursorIdx.toNat 0 then
              some (sparkWalk pts cursorIdx width timeSlots ++
                [(⟨w, timeSlots.getD cursorIdx.toNat 0⟩ : HPoint)])
            else some (sparkWalk pts cursorIdx width timeSlots)).isSome
            = true
          split <;> rfl

/-- Witness for C10 at concrete inputs: a push into a fresh capacity-3
buffer succeeds, the nearest-time lookup on a one-point list succeeds,
and a negative-width sparkline is the empty string. -/
theorem core_operations_total_witness :
    ((NewHistory 3).Push 5 none).isSome ∧
    (findTempAtTime [⟨0, 1⟩] 7).isSome ∧
    RenderSparklinePoints [] (-1) 0 1 0 0 false false = [] := by
  have h := core_operations_total (NewHistory 3) 5 none 3 []
    (NewHistoryStore 3) "k" [] (-1) 0 1 0 0 0 false false 0
    [⟨0, 1⟩] 7 0 []
  exact ⟨h.1 (by decide), h.2.2.2.2.2.2.2.2.1 (by simp),
    (h.2.2.2.2.2.2.1 (by decide)).1⟩

end Zigster
